import Mathlib

/-!
Verification of the mtxt codec core (SMF ↔ MTXT translation).

This file gives a shallow embedding, in Lean, of the translation layer of the
mtxt repository and proves or refutes the specification claims about it.

Modelling conventions:
* Rust machine integers are modelled as `ℕ` (or `ℤ`), with explicit range
  checks or `% 2 ^ w` truncation where the source relies on them.
* Rust `f32`/`f64` arithmetic is modelled exactly over `ℚ`; every narrowing
  float-to-int cast is modelled as the truncating, saturating cast that Rust
  performs.  The concrete inputs used in the theorems below are chosen far
  from rounding boundaries, so the rational model and the float computation
  agree on them.
* Fallible Rust functions returning `anyhow::Result` are modelled as
  `Except String`.
* Rust strings are modelled as `List Char` where character-level processing
  matters, and as `String` for opaque payloads.

Several support files of the repository (`types/beat_time.rs`,
`types/output_record.rs`, `types/record.rs`, `midi/shared.rs`,
`midi/escape.rs`) are not part of the sources provided; the definitions for
those carry a doc comment starting with `Modelled from the spec:` and follow
the specification text instead.
-/

namespace Mtxt

set_option maxRecDepth 2048

instance {ε α : Type} [DecidableEq ε] [DecidableEq α] : DecidableEq (Except ε α) := fun a b =>
  match a, b with
  | .ok x, .ok y => decidable_of_iff (x = y) (by simp)
  | .error x, .error y => decidable_of_iff (x = y) (by simp)
  | .ok _, .error _ => isFalse (by simp)
  | .error _, .ok _ => isFalse (by simp)

/-! ## Decimal numerals

Helpers modelling Rust's decimal formatting of unsigned integers
(`Display for u32`) and decimal parsing (`u32::from_str`).  These are used by
the `BeatFraction` and `BeatTime` text forms.
-/

/-- The character of a single decimal digit. -/
def digitChar (d : ℕ) : Char := Char.ofNat (48 + d)

/-- The decimal digit value of a character, if it is a digit. -/
def digitVal (c : Char) : Option ℕ :=
  if 48 ≤ c.toNat ∧ c.toNat ≤ 57 then some (c.toNat - 48) else none

/-- Little-endian base-10 digits with explicit fuel (so that it evaluates by
kernel reduction); `natDigits` below ties the fuel off. -/
def natDigitsAux : ℕ → ℕ → List ℕ
  | 0, _ => []
  | fuel + 1, n => if n = 0 then [] else n % 10 :: natDigitsAux fuel (n / 10)

/-- Little-endian base-10 digits of a natural number. -/
def natDigits (n : ℕ) : List ℕ := natDigitsAux n n

theorem natDigitsAux_eq_digits :
    ∀ (fuel n : ℕ), n ≤ fuel → natDigitsAux fuel n = Nat.digits 10 n := by
  intro fuel
  induction fuel with
  | zero =>
    intro n hn
    obtain rfl : n = 0 := Nat.le_zero.1 hn
    simp [natDigitsAux, Nat.digits_zero]
  | succ fuel ih =>
    intro n hn
    by_cases h0 : n = 0
    · subst h0; simp [natDigitsAux, Nat.digits_zero]
    · rw [Nat.digits_def' (by norm_num) (Nat.pos_of_ne_zero h0)]
      simp only [natDigitsAux, if_neg h0]
      rw [ih (n / 10) ?_]
      have := Nat.div_lt_self (Nat.pos_of_ne_zero h0) (by norm_num : 1 < 10)
      omega

theorem natDigits_eq (n : ℕ) : natDigits n = Nat.digits 10 n :=
  natDigitsAux_eq_digits n n (le_refl n)

/-- Big-endian decimal digit characters of a natural number, exactly as
Rust's `Display` for unsigned integers prints it. -/
def printNat (n : ℕ) : List Char :=
  if n = 0 then ['0'] else (natDigits n).reverse.map digitChar

/-- Value of a big-endian digit list. -/
def digitsToNat (ds : List ℕ) : ℕ := ds.foldl (fun a d => 10 * a + d) 0

/-- Digit values of a character list, if every character is a digit. -/
def digitsOf : List Char → Option (List ℕ)
  | [] => some []
  | c :: cs =>
    match digitVal c, digitsOf cs with
    | some d, some ds => some (d :: ds)
    | _, _ => none

/-- Parse a nonempty all-digit character list (leading zeros allowed, like
Rust's integer `from_str` after sign handling). -/
def parseDigits (cs : List Char) : Option ℕ :=
  if cs.isEmpty then none
  else (digitsOf cs).map digitsToNat

theorem digitVal_digitChar {d : ℕ} (hd : d < 10) : digitVal (digitChar d) = some d := by
  interval_cases d <;> decide

theorem digitsOf_map_digitChar {l : List ℕ} (h : ∀ d ∈ l, d < 10) :
    digitsOf (l.map digitChar) = some l := by
  induction l with
  | nil => rfl
  | cons d ds ih =>
    simp only [List.map_cons, digitsOf, digitVal_digitChar (h d (by simp)),
      ih (fun x hx => h x (by simp [hx]))]

theorem digitsToNat_append (xs : List ℕ) (d : ℕ) :
    digitsToNat (xs ++ [d]) = 10 * digitsToNat xs + d := by
  simp [digitsToNat, List.foldl_append]

theorem digitsToNat_reverse (l : List ℕ) :
    digitsToNat l.reverse = Nat.ofDigits 10 l := by
  induction l with
  | nil => rfl
  | cons d ds ih =>
    simp only [List.reverse_cons, digitsToNat_append, ih, Nat.ofDigits_cons]
    ring

theorem parseDigits_printNat (n : ℕ) : parseDigits (printNat n) = some n := by
  by_cases hn : n = 0
  · subst hn; decide
  · have hne : Nat.digits 10 n ≠ [] := Nat.digits_ne_nil_iff_ne_zero.2 hn
    have hlt : ∀ d ∈ (Nat.digits 10 n).reverse, d < 10 := by
      intro d hd
      exact Nat.digits_lt_base (by norm_num) (List.mem_reverse.1 hd)
    simp only [printNat, natDigits_eq, if_neg hn, parseDigits]
    rw [if_neg (by simpa using fun h => hne (List.reverse_eq_nil_iff.1 h))]
    rw [digitsOf_map_digitChar hlt]
    simp [digitsToNat_reverse, Nat.ofDigits_digits]

theorem digitsToNat_zero_cons (ds : List ℕ) :
    digitsToNat (0 :: ds) = digitsToNat ds := by
  simp [digitsToNat]

theorem digitsToNat_replicate_zero_append (j : ℕ) (ds : List ℕ) :
    digitsToNat (List.replicate j 0 ++ ds) = digitsToNat ds := by
  induction j with
  | zero => rfl
  | succ k ih => simpa [List.replicate_succ, digitsToNat] using ih

/-- Bound on the value of a digit list. -/
theorem digitsToNat_lt (ds : List ℕ) (h : ∀ d ∈ ds, d < 10) :
    digitsToNat ds < 10 ^ ds.length := by
  suffices H : ∀ a, a < 10 ^ 0 → ds.foldl (fun a d => 10 * a + d) a < 10 ^ ds.length by
    exact H 0 (by norm_num)
  suffices H : ∀ (k : ℕ) (a : ℕ), (∀ d ∈ ds, d < 10) → a < 10 ^ k →
      ds.foldl (fun a d => 10 * a + d) a < 10 ^ (k + ds.length) by
    intro a ha
    simpa using H 0 a h ha
  clear h
  induction ds with
  | nil => intro k a _ ha; simpa using ha
  | cons d ds ih =>
    intro k a h ha
    have hd : d < 10 := h d (by simp)
    have : 10 * a + d < 10 ^ (k + 1) := by
      have : 10 * a + d < 10 * (a + 1) := by omega
      calc 10 * a + d < 10 * (a + 1) := this
        _ ≤ 10 * 10 ^ k := by
            have : a + 1 ≤ 10 ^ k := ha
            omega
        _ = 10 ^ (k + 1) := by ring
    have := ih (k + 1) (10 * a + d) (fun x hx => h x (by simp [hx])) this
    simpa [List.foldl_cons, Nat.add_assoc, Nat.add_comm, Nat.add_left_comm] using this

theorem digitsOf_length_lt {cs : List Char} {ds : List ℕ} (h : digitsOf cs = some ds) :
    ds.length = cs.length ∧ ∀ d ∈ ds, d < 10 := by
  induction cs generalizing ds with
  | nil =>
    simp only [digitsOf, Option.some.injEq] at h
    subst h; simp
  | cons c cs ih =>
    simp only [digitsOf] at h
    split at h
    · rename_i d ds' hd hds
      obtain rfl : d :: ds' = ds := by simpa using h
      obtain ⟨h1, h2⟩ := ih hds
      have hdlt : d < 10 := by
        simp only [digitVal] at hd
        split at hd
        · have := Option.some.inj hd
          omega
        · exact absurd hd (by simp)
      refine ⟨by simp [h1], ?_⟩
      intro x hx
      rcases List.mem_cons.1 hx with rfl | hx
      · exact hdlt
      · exact h2 x hx
    · exact absurd h (by simp)

theorem parseDigits_lt {cs : List Char} {n : ℕ} (h : parseDigits cs = some n) :
    n < 10 ^ cs.length := by
  simp only [parseDigits] at h
  split at h
  · exact absurd h (by simp)
  · obtain ⟨ds, hds, rfl⟩ := Option.map_eq_some'.1 h
    obtain ⟨hlen, hd⟩ := digitsOf_length_lt hds
    have := digitsToNat_lt ds hd
    rwa [hlen] at this

theorem toNat_digitChar {d : ℕ} (hd : d < 10) : (digitChar d).toNat = 48 + d := by
  interval_cases d <;> decide

theorem mem_printNat_toNat {n : ℕ} {c : Char} (hc : c ∈ printNat n) :
    48 ≤ c.toNat ∧ c.toNat ≤ 57 := by
  by_cases hn : n = 0
  · subst hn
    have : c = '0' := by simpa [printNat] using hc
    subst this; decide
  · simp only [printNat, natDigits_eq, if_neg hn, List.mem_map] at hc
    obtain ⟨d, hd, rfl⟩ := hc
    have hdlt : d < 10 := Nat.digits_lt_base (by norm_num) (List.mem_reverse.1 hd)
    rw [toNat_digitChar hdlt]
    omega

theorem printNat_ne_nil (n : ℕ) : printNat n ≠ [] := by
  by_cases hn : n = 0
  · subst hn; decide
  · simp only [printNat, natDigits_eq, if_neg hn]
    simpa using Nat.digits_ne_nil_iff_ne_zero.2 hn

theorem printNat_length_le {n k : ℕ} (hk : 1 ≤ k) (hn : n < 10 ^ k) :
    (printNat n).length ≤ k := by
  by_cases h0 : n = 0
  · subst h0; simpa [printNat] using hk
  · simp only [printNat, natDigits_eq, if_neg h0, List.length_map, List.length_reverse]
    by_contra hlen
    push_neg at hlen
    have h1 : 10 ^ (k + 1) ≤ 10 ^ (Nat.digits 10 n).length :=
      Nat.pow_le_pow_right (by norm_num) hlen
    have h2 : 10 ^ (Nat.digits 10 n).length ≤ 10 * n :=
      Nat.base_pow_length_digits_le 10 n (by norm_num) h0
    have : 10 ^ k ≤ n := by
      have : 10 * 10 ^ k ≤ 10 * n := by
        calc 10 * 10 ^ k = 10 ^ (k + 1) := by ring
          _ ≤ 10 ^ (Nat.digits 10 n).length := h1
          _ ≤ 10 * n := h2
      omega
    omega

/-- Left-pad a numeral with zeros to width `k` (Rust's `{:0k}` style padding,
used here for fractional digit blocks). -/
def printNatPad (n k : ℕ) : List Char :=
  List.replicate (k - (printNat n).length) '0' ++ printNat n

theorem printNatPad_length {n k : ℕ} (hk : 1 ≤ k) (hn : n < 10 ^ k) :
    (printNatPad n k).length = k := by
  have := printNat_length_le hk hn
  simp only [printNatPad, List.length_append, List.length_replicate]
  omega

theorem digitsOf_append {xs ys : List Char} {dxs dys : List ℕ}
    (hx : digitsOf xs = some dxs) (hy : digitsOf ys = some dys) :
    digitsOf (xs ++ ys) = some (dxs ++ dys) := by
  induction xs generalizing dxs with
  | nil =>
    simp only [digitsOf, Option.some.injEq] at hx
    subst hx; simpa using hy
  | cons c cs ih =>
    simp only [digitsOf] at hx ⊢
    split at hx
    · rename_i d ds hd hds
      obtain rfl : d :: ds = dxs := by simpa using hx
      rw [List.cons_append]
      simp only [digitsOf, hd, List.append_eq]
      rw [ih hds]
    · exact absurd hx (by simp)

theorem digitsOf_replicate_zero (j : ℕ) :
    digitsOf (List.replicate j '0') = some (List.replicate j 0) := by
  induction j with
  | zero => rfl
  | succ k ih =>
    simp only [List.replicate_succ, digitsOf, ih]
    rfl

theorem parseDigits_printNatPad (n k : ℕ) : parseDigits (printNatPad n k) = some n := by
  have hp := parseDigits_printNat n
  simp only [parseDigits] at hp
  rw [if_neg (by simpa using printNat_ne_nil n)] at hp
  obtain ⟨ds, hds, hval⟩ := Option.map_eq_some'.1 hp
  simp only [parseDigits, printNatPad]
  rw [if_neg (by simp [printNat_ne_nil n])]
  rw [digitsOf_append (digitsOf_replicate_zero _) hds]
  simp [digitsToNat_replicate_zero_append, hval]

/-- Split a character list at every occurrence of `sep`, modelling Rust's
`str::split(sep)` (so `n + 1` parts for `n` separators, empty parts kept). -/
def splitOnChar (sep : Char) : List Char → List (List Char)
  | [] => [[]]
  | c :: cs =>
    if c = sep then [] :: splitOnChar sep cs
    else
      match splitOnChar sep cs with
      | [] => [[c]]
      | p :: ps => (c :: p) :: ps

theorem splitOnChar_ne_nil (sep : Char) (cs : List Char) : splitOnChar sep cs ≠ [] := by
  cases cs with
  | nil => simp [splitOnChar]
  | cons c cs =>
    simp only [splitOnChar]
    split
    · simp
    · split <;> simp

theorem splitOnChar_of_not_mem {sep : Char} {cs : List Char} (h : sep ∉ cs) :
    splitOnChar sep cs = [cs] := by
  induction cs with
  | nil => rfl
  | cons c cs ih =>
    have hc : c ≠ sep := fun hc => h (by simp [hc])
    have hcs : sep ∉ cs := fun hm => h (by simp [hm])
    simp only [splitOnChar, if_neg hc, ih hcs]

theorem splitOnChar_append_sep {sep : Char} {xs ys : List Char} (h : sep ∉ xs) :
    splitOnChar sep (xs ++ sep :: ys) = xs :: splitOnChar sep ys := by
  induction xs with
  | nil => simp [splitOnChar]
  | cons c cs ih =>
    have hc : c ≠ sep := fun hc => h (by simp [hc])
    have hcs : sep ∉ cs := fun hm => h (by simp [hm])
    simp only [List.cons_append, splitOnChar, if_neg hc, List.append_eq]
    rw [ih hcs]

/-- Drop one optional leading `+` sign, as Rust's integer `from_str` does. -/
def stripPlus : List Char → List Char
  | [] => []
  | c :: rest => if c = '+' then rest else c :: rest

/-- Rust's `u32::from_str`: an optional leading `+`, then one or more decimal
digits; fails on overflow past `u32::MAX`. -/
def parseU32 (cs : List Char) : Option ℕ :=
  match parseDigits (stripPlus cs) with
  | some n => if n < 2 ^ 32 then some n else none
  | none => none

theorem parseU32_lt {cs : List Char} {n : ℕ} (h : parseU32 cs = some n) : n < 2 ^ 32 := by
  simp only [parseU32] at h
  split at h
  · split at h
    · cases h
      assumption
    · exact absurd h (by simp)
  · exact absurd h (by simp)

theorem stripPlus_of_ne_plus {cs : List Char} (h : ∀ rest, cs ≠ '+' :: rest) :
    stripPlus cs = cs := by
  cases cs with
  | nil => rfl
  | cons c rest =>
    have hc : c ≠ '+' := fun hc => h rest (by rw [hc])
    simp [stripPlus, hc]

theorem stripPlus_printNat (n : ℕ) : stripPlus (printNat n) = printNat n := by
  refine stripPlus_of_ne_plus ?_
  intro rest heq
  have hmem : ('+' : Char) ∈ printNat n := by rw [heq]; simp
  have := mem_printNat_toNat hmem
  revert this; decide

theorem parseU32_printNat {n : ℕ} (hn : n < 2 ^ 32) : parseU32 (printNat n) = some n := by
  simp only [parseU32, stripPlus_printNat, parseDigits_printNat n, if_pos hn]

/-! ## BeatTime

Modelled from the spec: `BeatTime` (`types/beat_time.rs` is not among the
provided sources).  Per §3 it is a nonnegative beat position stored as
`(whole_beats : u32, frac_beats : f32 ∈ [0,1))` with addition, subtraction,
multiplication (treating the fractional part as a real), a total order, and a
canonical trailing-zero-trimmed decimal text form.  We model the value as a
nonnegative rational; `BeatTime::zero()` is `0`.
-/

/-- Modelled from the spec: `BeatTime::from_str` — a decimal literal
`digits[.digits]` with value `I + F / 10 ^ len`, whole part below `2^32`
(the `u32` whole-beat field). -/
def parseDecimal (cs : List Char) : Option ℚ :=
  match splitOnChar '.' cs with
  | [ip] =>
    match parseDigits ip with
    | some i => if i < 2 ^ 32 then some (i : ℚ) else none
    | none => none
  | [ip, fp] =>
    match parseDigits ip, parseDigits fp with
    | some i, some f =>
      if i < 2 ^ 32 then some ((i : ℚ) + (f : ℚ) / 10 ^ fp.length) else none
    | _, _ => none
  | _ => none

/-- Bounded search for the least `k ≤ fuel` steps away with `den ∣ 10 ^ k`. -/
def minTenPowAux (den : ℕ) : ℕ → ℕ → Option ℕ
  | 0, _ => none
  | fuel + 1, k => if den ∣ 10 ^ k then some k else minTenPowAux den fuel (k + 1)

/-- The least `k` with `den ∣ 10 ^ k`, when `den` has only the prime factors
2 and 5 (the denominators reachable from decimal parsing). -/
def minTenPow (den : ℕ) : Option ℕ := minTenPowAux den (den + 1) 0

/-- Modelled from the spec: `BeatTime`'s `Display` — whole beats, a decimal
point, then the trailing-zero-trimmed fractional digits (at least one digit,
so `1` prints as `1.0`, matching the repository's `beat_expression` tests). -/
def displayTime (q : ℚ) : List Char :=
  let w : ℕ := (⌊q⌋).toNat
  let f : ℚ := q - (w : ℚ)
  match minTenPow f.den with
  | none => []
  | some k =>
    if k = 0 then printNat w ++ ['.', '0']
    else printNat w ++ '.' :: printNatPad (f.num.toNat * 10 ^ k / f.den) k

/-- The values reachable from `parseDecimal`: nonnegative, whole part below
`2^32`, finite decimal denominator. -/
def IsDecimalTime (q : ℚ) : Prop :=
  0 ≤ q ∧ ⌊q⌋ < 2 ^ 32 ∧ ∃ k, (q.den : ℕ) ∣ 10 ^ k

theorem minTenPowAux_dvd {den fuel k k0 : ℕ} (h : minTenPowAux den fuel k = some k0) :
    den ∣ 10 ^ k0 := by
  induction fuel generalizing k with
  | zero => exact absurd h (by simp [minTenPowAux])
  | succ fuel ih =>
    simp only [minTenPowAux] at h
    split at h
    · cases h; assumption
    · exact ih h

theorem minTenPowAux_isSome {den : ℕ} :
    ∀ fuel k, (∃ j, k ≤ j ∧ j < k + fuel ∧ den ∣ 10 ^ j) →
      ∃ k0, minTenPowAux den fuel k = some k0 := by
  intro fuel
  induction fuel with
  | zero =>
    intro k ⟨j, h1, h2, _⟩
    omega
  | succ fuel ih =>
    intro k ⟨j, h1, h2, h3⟩
    simp only [minTenPowAux]
    split
    · exact ⟨k, rfl⟩
    · rename_i hk
      refine ih (k + 1) ⟨j, ?_, by omega, h3⟩
      rcases Nat.eq_or_lt_of_le h1 with rfl | h
      · exact absurd h3 hk
      · exact h

/-- A divisor of a power of ten divides the power of ten with its own
exponent. -/
theorem dvd_ten_pow_self {den K : ℕ} (h : den ∣ 10 ^ K) : den ∣ 10 ^ den := by
  induction den using Nat.strong_induction_on with
  | _ den ih =>
    by_cases h1 : den = 1
    · subst h1; exact one_dvd _
    · by_cases h0 : den = 0
      · subst h0
        exact absurd (Nat.eq_zero_of_zero_dvd h) (by positivity)
      · obtain ⟨p, hp, hpd⟩ := Nat.exists_prime_and_dvd h1
        have hp10 : p ∣ 10 := hp.dvd_of_dvd_pow (hpd.trans h)
        obtain ⟨m, hm⟩ := hpd
        have hp2 : 2 ≤ p := hp.two_le
        have hm0 : m ≠ 0 := by
          intro h'
          exact h0 (by simp [hm, h'])
        have hmlt : m < den := by
          have hmpos : 0 < m := Nat.pos_of_ne_zero hm0
          have : 2 * m ≤ p * m := Nat.mul_le_mul_right m hp2
          omega
        have hmdvd : m ∣ 10 ^ K := dvd_trans (Dvd.intro_left p hm.symm) h
        have hmm : m ∣ 10 ^ m := ih m hmlt hmdvd
        have : den ∣ 10 ^ (m + 1) := by
          rw [hm, pow_succ, Nat.mul_comm (10 ^ m) 10]
          exact Nat.mul_dvd_mul hp10 hmm
        exact this.trans (Nat.pow_dvd_pow 10 (by omega))

theorem minTenPow_isSome {den K : ℕ} (h : den ∣ 10 ^ K) :
    ∃ k0, minTenPow den = some k0 :=
  minTenPowAux_isSome (den + 1) 0 ⟨den, Nat.zero_le _, by omega, dvd_ten_pow_self h⟩

theorem mem_printNatPad_toNat {n k : ℕ} {c : Char} (hc : c ∈ printNatPad n k) :
    48 ≤ c.toNat ∧ c.toNat ≤ 57 := by
  simp only [printNatPad, List.mem_append, List.mem_replicate] at hc
  rcases hc with ⟨-, rfl⟩ | hc
  · decide
  · exact mem_printNat_toNat hc

theorem dot_not_mem_printNat (n : ℕ) : ('.' : Char) ∉ printNat n := by
  intro h
  have := mem_printNat_toNat h
  revert this; decide

theorem dot_not_mem_printNatPad (n k : ℕ) : ('.' : Char) ∉ printNatPad n k := by
  intro h
  have := mem_printNatPad_toNat h
  revert this; decide

/-- Print-then-parse roundtrip for the decimal `BeatTime` text form. -/
theorem parseDecimal_displayTime {q : ℚ} (h : IsDecimalTime q) :
    parseDecimal (displayTime q) = some q := by
  obtain ⟨hq0, hqlt, K, hK⟩ := h
  have hfl0 : (0 : ℤ) ≤ ⌊q⌋ := Int.floor_nonneg.2 hq0
  set w : ℕ := (⌊q⌋).toNat with hw
  have hwq : (w : ℚ) = (⌊q⌋ : ℚ) := by
    rw [hw]
    exact_mod_cast congrArg (fun z : ℤ => (z : ℚ)) (Int.toNat_of_nonneg hfl0)
  have hwlt : w < 2 ^ 32 := by omega
  set f : ℚ := q - (w : ℚ) with hf
  have hffract : f = Int.fract q := by
    rw [hf, hwq, Int.self_sub_floor]
  have hf0 : 0 ≤ f := hffract ▸ Int.fract_nonneg q
  have hf1 : f < 1 := hffract ▸ Int.fract_lt_one q
  have hfden : (f.den : ℕ) ∣ 10 ^ K := by
    have h1 : f = q + (-(w : ℚ)) := by rw [hf]; ring
    have h2 : (q + (-(w : ℚ))).den ∣ q.den * (-(w : ℚ)).den := Rat.add_den_dvd q _
    rw [← h1] at h2
    simp only [Rat.neg_den, Rat.den_natCast, Nat.mul_one] at h2
    exact h2.trans hK
  obtain ⟨k, hk⟩ := minTenPow_isSome hfden
  have hkdvd : f.den ∣ 10 ^ k := minTenPowAux_dvd hk
  have hnum0 : (0 : ℤ) ≤ f.num := Rat.num_nonneg.2 hf0
  by_cases hk0 : k = 0
  · subst hk0
    have hden1 : f.den = 1 := Nat.eq_one_of_dvd_one (by simpa using hkdvd)
    have hfz : f = 0 := by
      have hnumlt : f.num < (f.den : ℤ) := Rat.lt_one_iff_num_lt_denom.1 hf1
      have : f.num = 0 := by
        rw [hden1] at hnumlt
        omega
      exact Rat.zero_iff_num_zero.2 this
    have hqw : q = (w : ℚ) := by
      have : q - (w : ℚ) = 0 := hf ▸ hfz
      linarith
    simp only [displayTime, ← hw, ← hf, hk, eq_self_iff_true, if_true]
    have hsplit0 : splitOnChar '.' (printNat w ++ ['.', '0']) = [printNat w, ['0']] := by
      rw [@splitOnChar_append_sep '.' (printNat w) ['0'] (dot_not_mem_printNat w)]
      rw [splitOnChar_of_not_mem (by decide)]
    have hd0 : parseDigits ['0'] = some 0 := by decide
    simp only [parseDecimal, hsplit0, parseDigits_printNat w, hd0]
    norm_num [hwlt, hqw]
    intro h
    exact absurd hwlt (by omega)
  · set m : ℕ := f.num.toNat * 10 ^ k / f.den with hm
    have hdenpos : 0 < f.den := f.den_pos
    have hdvdnum : f.den ∣ f.num.toNat * 10 ^ k := Dvd.dvd.mul_left hkdvd _
    have hmden : m * f.den = f.num.toNat * 10 ^ k := Nat.div_mul_cancel hdvdnum
    have hmlt : m < 10 ^ k := by
      have hnumlt : f.num.toNat < f.den := by
        have := Rat.lt_one_iff_num_lt_denom.1 hf1
        omega
      rw [hm]
      rw [Nat.div_lt_iff_lt_mul hdenpos]
      calc f.num.toNat * 10 ^ k < f.den * 10 ^ k :=
            (Nat.mul_lt_mul_right (Nat.pow_pos (by norm_num))).2 hnumlt
        _ = 10 ^ k * f.den := Nat.mul_comm _ _
    simp only [displayTime, ← hw, ← hf, hk, if_neg hk0, ← hm]
    have hsplit : splitOnChar '.' (printNat w ++ '.' :: printNatPad m k) =
        [printNat w, printNatPad m k] := by
      rw [splitOnChar_append_sep (dot_not_mem_printNat w),
        splitOnChar_of_not_mem (dot_not_mem_printNatPad m k)]
    simp only [parseDecimal, hsplit, parseDigits_printNat w, parseDigits_printNatPad m k,
      if_pos hwlt]
    have hlen : (printNatPad m k).length = k := printNatPad_length (by omega) hmlt
    rw [hlen]
    have hval : (m : ℚ) / 10 ^ k = f := by
      have hcast : (m : ℚ) * (f.den : ℚ) = (f.num.toNat : ℚ) * 10 ^ k := by
        exact_mod_cast congrArg (fun n : ℕ => (n : ℚ)) hmden
      have hnumcast : ((f.num.toNat : ℕ) : ℚ) = ((f.num : ℤ) : ℚ) := by
        exact_mod_cast congrArg (fun z : ℤ => (z : ℚ)) (Int.toNat_of_nonneg hnum0)
      have hden0 : (f.den : ℚ) ≠ 0 := by exact_mod_cast hdenpos.ne'
      have hpow0 : ((10 : ℚ) ^ k) ≠ 0 := by positivity
      rw [← Rat.num_div_den f, div_eq_div_iff hpow0 hden0]
      rw [hnumcast] at hcast
      linarith [hcast]
    rw [hval]
    congr 1
    rw [hf]
    ring

theorem isDecimalTime_of_parseDecimal {cs : List Char} {q : ℚ}
    (h : parseDecimal cs = some q) : IsDecimalTime q := by
  simp only [parseDecimal] at h
  split at h
  · rename_i ip heq
    split at h
    · rename_i i hi
      split at h
      · rename_i hilt
        cases h
        refine ⟨by positivity, ?_, 0, ?_⟩
        · rw [Int.floor_natCast]
          exact_mod_cast hilt
        · simp
      · exact absurd h (by simp)
    · exact absurd h (by simp)
  · rename_i ip fp heq
    split at h
    · rename_i i f hi hf
      split at h
      · rename_i hilt
        cases h
        have hflt : f < 10 ^ fp.length := parseDigits_lt hf
        have hfrac0 : (0 : ℚ) ≤ (f : ℚ) / 10 ^ fp.length := by positivity
        have hfrac1 : (f : ℚ) / 10 ^ fp.length < 1 := by
          rw [div_lt_one (by positivity)]
          exact_mod_cast hflt
        refine ⟨by positivity, ?_, fp.length, ?_⟩
        · have hfloor : ⌊(i : ℚ) + (f : ℚ) / 10 ^ fp.length⌋ = (i : ℤ) := by
            rw [add_comm, Int.floor_add_nat]
            rw [Int.floor_eq_zero_iff.2 ⟨hfrac0, hfrac1⟩]
            simp
          rw [hfloor]
          exact_mod_cast hilt
        · have hrep : (i : ℚ) + (f : ℚ) / 10 ^ fp.length =
              (((i * 10 ^ fp.length + f : ℕ) : ℤ) : ℚ) / (((10 ^ fp.length : ℕ) : ℤ) : ℚ) := by
            push_cast
            field_simp
          have hdvd := Rat.den_dvd ((i * 10 ^ fp.length + f : ℕ) : ℤ) ((10 ^ fp.length : ℕ) : ℤ)
          rw [Rat.divInt_eq_div] at hdvd
          rw [← hrep] at hdvd
          exact_mod_cast hdvd
      · exact absurd h (by simp)
    · exact absurd h (by simp)
  · exact absurd h (by simp)

theorem mem_displayTime_toNat {q : ℚ} {c : Char} (hc : c ∈ displayTime q) :
    c.toNat = 46 ∨ (48 ≤ c.toNat ∧ c.toNat ≤ 57) := by
  simp only [displayTime] at hc
  split at hc
  · exact absurd hc (by simp)
  · split at hc
    · simp only [List.mem_append] at hc
      rcases hc with hc | hc
      · exact Or.inr (mem_printNat_toNat hc)
      · have : c = '.' ∨ c = '0' := by simpa using hc
        rcases this with rfl | rfl
        · left; rfl
        · right; decide
    · simp only [List.mem_append] at hc
      rcases hc with hc | hc
      · exact Or.inr (mem_printNat_toNat hc)
      · rcases List.mem_cons.1 hc with rfl | hc
        · left; rfl
        · exact Or.inr (mem_printNatPad_toNat hc)

theorem displayTime_ne_nil {q : ℚ} (h : IsDecimalTime q) : displayTime q ≠ [] := by
  obtain ⟨hq0, hqlt, K, hK⟩ := h
  have hfl0 : (0 : ℤ) ≤ ⌊q⌋ := Int.floor_nonneg.2 hq0
  have hfden : ((q - ((⌊q⌋.toNat : ℕ) : ℚ)).den : ℕ) ∣ 10 ^ K := by
    have h1 : q - ((⌊q⌋.toNat : ℕ) : ℚ) = q + (-((⌊q⌋.toNat : ℕ) : ℚ)) := by ring
    have h2 := Rat.add_den_dvd q (-((⌊q⌋.toNat : ℕ) : ℚ))
    rw [← h1] at h2
    simp only [Rat.neg_den, Rat.den_natCast, Nat.mul_one] at h2
    exact h2.trans hK
  obtain ⟨k, hk⟩ := minTenPow_isSome hfden
  simp only [displayTime, hk]
  split
  · simp [printNat_ne_nil]
  · simp [printNat_ne_nil]

/-! ## BeatFraction (`types/beat_fraction.rs`) -/

/-- An exact rational `numerator / denominator` with `denominator > 0`,
produced only by parsing `N/D` literals. -/
structure BeatFraction where
  numerator : ℕ
  denominator : ℕ
deriving DecidableEq

/-- `BeatFraction::new`: rejects a zero denominator. -/
def BeatFraction.new (n d : ℕ) : Except String BeatFraction :=
  if d = 0 then .error "Denominator cannot be zero" else .ok ⟨n, d⟩

/-- `BeatFraction::from_str`: split on `/` (exactly two parts), parse both
as `u32`, then `new`. -/
def beatFraction_from_str (cs : List Char) : Except String BeatFraction :=
  match splitOnChar '/' cs with
  | [np, dp] =>
    match parseU32 np, parseU32 dp with
    | some n, some d => BeatFraction.new n d
    | _, _ => .error "Invalid fraction part"
  | _ => .error "Invalid fraction format"

/-- `BeatFraction::as_beat_time`: real division (the source computes floor and
fractional part with floats; modelled exactly over `ℚ`). -/
def BeatFraction.as_beat_time (f : BeatFraction) : ℚ :=
  (f.numerator : ℚ) / (f.denominator : ℚ)

/-- `Display for BeatFraction`: `numerator/denominator`. -/
def displayFraction (f : BeatFraction) : List Char :=
  printNat f.numerator ++ '/' :: printNat f.denominator

/-! ## BeatExpression (`types/beat_expression.rs`) -/

/-- `BeatValue`: a parsed lexeme, either a beat time or a fraction. -/
inductive BeatValue
  | time (t : ℚ)
  | fraction (f : BeatFraction)
deriving DecidableEq

/-- `BeatValue::as_beat_time`. -/
def BeatValue.as_beat_time : BeatValue → ℚ
  | .time t => t
  | .fraction f => f.as_beat_time

/-- `BeatOperator`. -/
inductive BeatOperator
  | plus
  | minus
  | multiply
deriving DecidableEq

/-- `BeatExpressionItem`: a value or an operator of the flat expression. -/
inductive BeatExpressionItem
  | value (v : BeatValue)
  | op (o : BeatOperator)
deriving DecidableEq

/-- `parse_beat_value`: a lexeme containing `/` parses as a `BeatFraction`,
anything else as a `BeatTime`. -/
def parse_beat_value (cs : List Char) : Except String BeatValue :=
  if '/' ∈ cs then
    match beatFraction_from_str cs with
    | .ok f => .ok (.fraction f)
    | .error e => .error e
  else
    match parseDecimal cs with
    | some q => .ok (.time q)
    | none => .error "Invalid beat time"

/-- The three operator characters recognised by the scanner. -/
def isOpChar (c : Char) : Bool := c == '+' || c == '-' || c == '*'

/-- Operator character to `BeatOperator` (only called on operator chars). -/
def charToOp (c : Char) : BeatOperator :=
  if c = '+' then .plus else if c = '-' then .minus else .multiply

/-- Flush the accumulated lexeme, if nonempty, as a parsed value. -/
def flushCurrent (current : List Char) (items : List BeatExpressionItem) :
    Except String (List BeatExpressionItem) :=
  if current = [] then .ok items
  else
    match parse_beat_value current with
    | .ok v => .ok (items ++ [.value v])
    | .error e => .error e

/-- The character scan of `BeatExpression::from_str`: on `+ - *` flush the
lexeme and push the operator, otherwise extend the lexeme; flush at the end. -/
def scanItems : List Char → List Char → List BeatExpressionItem →
    Except String (List BeatExpressionItem)
  | [], current, items => flushCurrent current items
  | c :: cs, current, items =>
    if isOpChar c then
      match flushCurrent current items with
      | .ok items2 => scanItems cs [] (items2 ++ [.op (charToOp c)])
      | .error e => .error e
    else
      scanItems cs (current ++ [c]) items

/-- The post-scan validation at index `i`: a `*` must not sit at either end
and both neighbours must be explicit fractions. -/
def multiplyCheckAt (items : List BeatExpressionItem) (i : ℕ) : Bool :=
  match items[i]? with
  | some (.op .multiply) =>
    if i = 0 ∨ i = items.length - 1 then false
    else
      match items[i-1]?, items[i+1]? with
      | some (.value (.time _)), _ => false
      | _, some (.value (.time _)) => false
      | _, _ => true
  | _ => true

/-- The full validation loop over all indices. -/
def validateItems (items : List BeatExpressionItem) : Bool :=
  (List.range items.length).all (multiplyCheckAt items)

/-- The accumulator loop of `evaluate_sums`: `(pos, neg, current_term,
current_op)`, folding `*` into the term and committing on `+`/`-`. -/
def evalSumsAux : List BeatExpressionItem → ℚ → ℚ → Option ℚ → BeatOperator → ℚ × ℚ
  | [], pos, neg, ct, cop =>
    match ct with
    | some t =>
      match cop with
      | .plus => (pos + t, neg)
      | .minus => (pos, neg + t)
      | .multiply => (pos, neg)
    | none => (pos, neg)
  | item :: rest, pos, neg, ct, cop =>
    match item with
    | .value v =>
      match ct with
      | some t => evalSumsAux rest pos neg (some (t * v.as_beat_time)) cop
      | none => evalSumsAux rest pos neg (some v.as_beat_time) cop
    | .op .multiply => evalSumsAux rest pos neg ct cop
    | .op o =>
      match ct with
      | some t =>
        match cop with
        | .plus => evalSumsAux rest (pos + t) neg none o
        | .minus => evalSumsAux rest pos (neg + t) none o
        | .multiply => evalSumsAux rest pos neg none o
      | none => evalSumsAux rest pos neg none o

/-- `BeatExpression::evaluate_sums`. -/
def evaluate_sums (items : List BeatExpressionItem) : ℚ × ℚ :=
  if items = [] then (0, 0) else evalSumsAux items 0 0 none .plus

/-- `BeatExpression::as_beat_time`: `pos_sum - neg_sum` (`BeatTime`
subtraction; nonnegative because `from_str` rejects `pos < neg`). -/
def beatExpression_as_beat_time (items : List BeatExpressionItem) : ℚ :=
  (evaluate_sums items).1 - (evaluate_sums items).2

/-- ASCII whitespace, modelling `str::trim` for the inputs at hand. -/
def isWsChar (c : Char) : Bool := c == ' ' || c == '\t' || c == '\n' || c == '\r'

/-- `str::trim` on a character list. -/
def trimChars (cs : List Char) : List Char :=
  ((cs.dropWhile isWsChar).reverse.dropWhile isWsChar).reverse

/-- `BeatExpression::from_str`: trim, reject empty input and interior spaces,
scan, validate multiplications, and reject a negative total. -/
def beatExpression_from_str (cs : List Char) : Except String (List BeatExpressionItem) :=
  let s := trimChars cs
  if s = [] then .error "Empty expression"
  else if ' ' ∈ s then .error "Spaces are not allowed in beat expressions"
  else
    match scanItems s [] [] with
    | .error e => .error e
    | .ok items =>
      if validateItems items then
        if (evaluate_sums items).1 < (evaluate_sums items).2 then
          .error "Negative expression result"
        else .ok items
      else .error "Multiplication operand check failed"

/-- `Display for BeatOperator`. -/
def displayOp : BeatOperator → Char
  | .plus => '+'
  | .minus => '-'
  | .multiply => '*'

/-- `Display for BeatValue`. -/
def displayValue : BeatValue → List Char
  | .time t => displayTime t
  | .fraction f => displayFraction f

/-- One item of `Display for BeatExpression`. -/
def displayItem : BeatExpressionItem → List Char
  | .value v => displayValue v
  | .op o => [displayOp o]

/-- `Display for BeatExpression` (`to_string`): concatenate all items. -/
def displayExpression (items : List BeatExpressionItem) : List Char :=
  (items.map displayItem).flatten

/-! ### Wellformedness of parsed values -/

/-- The invariants a `BeatValue` produced by `parse_beat_value` satisfies. -/
def WFValue : BeatValue → Prop
  | .time t => IsDecimalTime t
  | .fraction f => f.numerator < 2 ^ 32 ∧ f.denominator < 2 ^ 32 ∧ f.denominator ≠ 0

/-- Item-level wellformedness. -/
def WFItem : BeatExpressionItem → Prop
  | .value v => WFValue v
  | .op _ => True

theorem wf_of_beatFraction_from_str {cs : List Char} {f : BeatFraction}
    (h : beatFraction_from_str cs = .ok f) :
    f.numerator < 2 ^ 32 ∧ f.denominator < 2 ^ 32 ∧ f.denominator ≠ 0 := by
  simp only [beatFraction_from_str] at h
  split at h
  · split at h
    · rename_i n d hn hd
      simp only [BeatFraction.new] at h
      split at h
      · exact absurd h (by simp)
      · rename_i hd0
        cases h
        exact ⟨parseU32_lt hn, parseU32_lt hd, hd0⟩
    · exact absurd h (by simp)
  · exact absurd h (by simp)

theorem wf_of_parse_beat_value {cs : List Char} {v : BeatValue}
    (h : parse_beat_value cs = .ok v) : WFValue v := by
  simp only [parse_beat_value] at h
  split at h
  · split at h
    · rename_i f hf
      cases h
      exact wf_of_beatFraction_from_str hf
    · exact absurd h (by simp)
  · split at h
    · rename_i q hq
      cases h
      exact isDecimalTime_of_parseDecimal hq
    · exact absurd h (by simp)

/-! ### Character classes of rendered output -/

theorem mem_displayFraction_toNat {f : BeatFraction} {c : Char}
    (hc : c ∈ displayFraction f) : c.toNat = 47 ∨ (48 ≤ c.toNat ∧ c.toNat ≤ 57) := by
  simp only [displayFraction, List.mem_append] at hc
  rcases hc with hc | hc
  · exact Or.inr (mem_printNat_toNat hc)
  · rcases List.mem_cons.1 hc with rfl | hc
    · left; rfl
    · exact Or.inr (mem_printNat_toNat hc)

theorem mem_displayValue_toNat {v : BeatValue} {c : Char} (hc : c ∈ displayValue v) :
    46 ≤ c.toNat ∧ c.toNat ≤ 57 := by
  cases v with
  | time t =>
    rcases mem_displayTime_toNat hc with h | h
    · omega
    · omega
  | fraction f =>
    rcases mem_displayFraction_toNat hc with h | h
    · omega
    · omega

theorem isOpChar_eq_false_of_46 {c : Char} (h : 46 ≤ c.toNat) : isOpChar c = false := by
  simp only [isOpChar, Bool.or_eq_false_iff, beq_eq_false_iff_ne, ne_eq]
  refine ⟨⟨?_, ?_⟩, ?_⟩ <;> (rintro rfl; revert h; decide)

theorem isWsChar_eq_false_of_46 {c : Char} (h : 46 ≤ c.toNat) : isWsChar c = false := by
  simp only [isWsChar, Bool.or_eq_false_iff, beq_eq_false_iff_ne, ne_eq]
  refine ⟨⟨⟨?_, ?_⟩, ?_⟩, ?_⟩ <;> (rintro rfl; revert h; decide)

theorem slash_not_mem_displayTime (q : ℚ) : ('/' : Char) ∉ displayTime q := by
  intro h
  rcases mem_displayTime_toNat h with h' | h' <;> revert h' <;> decide

theorem slash_not_mem_printNat (n : ℕ) : ('/' : Char) ∉ printNat n := by
  intro h
  have := mem_printNat_toNat h
  revert this; decide

/-! ### Rendering parses back to the same value -/

theorem parse_displayFraction {f : BeatFraction}
    (hw : f.numerator < 2 ^ 32 ∧ f.denominator < 2 ^ 32 ∧ f.denominator ≠ 0) :
    parse_beat_value (displayFraction f) = .ok (.fraction f) := by
  obtain ⟨hn, hd, hd0⟩ := hw
  have hmem : ('/' : Char) ∈ displayFraction f := by
    simp [displayFraction]
  have hsplit : splitOnChar '/' (displayFraction f) =
      [printNat f.numerator, printNat f.denominator] := by
    simp only [displayFraction]
    rw [splitOnChar_append_sep (slash_not_mem_printNat _),
      splitOnChar_of_not_mem (slash_not_mem_printNat _)]
  simp only [parse_beat_value, if_pos hmem, beatFraction_from_str, hsplit,
    parseU32_printNat hn, parseU32_printNat hd, BeatFraction.new, if_neg hd0]

theorem parse_displayValue {v : BeatValue} (hw : WFValue v) :
    parse_beat_value (displayValue v) = .ok v := by
  cases v with
  | time t =>
    simp only [displayValue, parse_beat_value, if_neg (slash_not_mem_displayTime t),
      parseDecimal_displayTime hw]
  | fraction f => exact parse_displayFraction hw

theorem displayValue_ne_nil {v : BeatValue} (hw : WFValue v) : displayValue v ≠ [] := by
  cases v with
  | time t => exact displayTime_ne_nil hw
  | fraction f =>
    simp only [displayValue, displayFraction]
    simp [printNat_ne_nil]

/-! ### Scanner lemmas -/

/-- No two adjacent `value` items (the shape the scanner produces). -/
def NoAdjacentValues : List BeatExpressionItem → Prop
  | .value _ :: .value _ :: _ => False
  | _ :: rest => NoAdjacentValues rest
  | [] => True

/-- Whether the item list ends with a `value`. -/
def endsWithValue (items : List BeatExpressionItem) : Bool :=
  match items.getLast? with
  | some (.value _) => true
  | _ => false

theorem noAdj_tail {x : BeatExpressionItem} {rest : List BeatExpressionItem}
    (h : NoAdjacentValues (x :: rest)) : NoAdjacentValues rest := by
  cases x with
  | op o => exact h
  | value v =>
    cases rest with
    | nil => trivial
    | cons y ys =>
      cases y with
      | op o => exact h
      | value w => exact absurd h (by simp [NoAdjacentValues])

theorem noAdj_cons_op {o : BeatOperator} {rest : List BeatExpressionItem}
    (h : NoAdjacentValues rest) : NoAdjacentValues (.op o :: rest) := h

theorem noAdj_append_op {l : List BeatExpressionItem} (o : BeatOperator)
    (h : NoAdjacentValues l) : NoAdjacentValues (l ++ [.op o]) := by
  induction l with
  | nil => trivial
  | cons x xs ih =>
    cases x with
    | op o2 =>
      exact noAdj_cons_op (ih (noAdj_tail h))
    | value v =>
      cases xs with
      | nil => trivial
      | cons y ys =>
        cases y with
        | value w => exact absurd h (by simp [NoAdjacentValues])
        | op o2 =>
          show NoAdjacentValues (.op o2 :: (ys ++ [.op o]))
          exact ih (noAdj_tail h)

theorem noAdj_append_value {l : List BeatExpressionItem} (v : BeatValue)
    (h : NoAdjacentValues l) (he : endsWithValue l = false) :
    NoAdjacentValues (l ++ [.value v]) := by
  induction l with
  | nil => trivial
  | cons x xs ih =>
    cases xs with
    | nil =>
      cases x with
      | value w => simp [endsWithValue] at he
      | op o => trivial
    | cons y ys =>
      have he2 : endsWithValue (y :: ys) = false := by
        simpa [endsWithValue, List.getLast?_cons_cons] using he
      cases x with
      | op o =>
        exact noAdj_cons_op (ih (noAdj_tail h) he2)
      | value w =>
        cases y with
        | value u => exact absurd h (by simp [NoAdjacentValues])
        | op o =>
          show NoAdjacentValues (.value w :: .op o :: (ys ++ [.value v]))
          have : NoAdjacentValues (.op o :: (ys ++ [.value v])) := ih (noAdj_tail h) he2
          exact this

theorem endsWithValue_append_op (l : List BeatExpressionItem) (o : BeatOperator) :
    endsWithValue (l ++ [.op o]) = false := by
  simp [endsWithValue, List.getLast?_concat]

/-- Flushing preserves the prefix. -/
theorem flushCurrent_prefix {current : List Char} {acc out : List BeatExpressionItem}
    (h : flushCurrent current acc = .ok out) :
    out = acc ∨ ∃ v, parse_beat_value current = .ok v ∧ out = acc ++ [.value v] := by
  simp only [flushCurrent] at h
  split at h
  · cases h; left; rfl
  · split at h
    · rename_i v hv
      cases h
      exact Or.inr ⟨v, hv, rfl⟩
    · exact absurd h (by simp)

theorem scanItems_prefix :
    ∀ (cs current : List Char) (acc out : List BeatExpressionItem),
      scanItems cs current acc = .ok out → ∃ suffix, out = acc ++ suffix := by
  intro cs
  induction cs with
  | nil =>
    intro current acc out h
    rcases flushCurrent_prefix h with rfl | ⟨v, -, rfl⟩
    · exact ⟨[], by simp⟩
    · exact ⟨[.value v], rfl⟩
  | cons c cs ih =>
    intro current acc out h
    simp only [scanItems] at h
    split at h
    · split at h
      · rename_i items2 hflush
        obtain ⟨s2, rfl⟩ := ih [] (items2 ++ [.op (charToOp c)]) out h
        rcases flushCurrent_prefix hflush with rfl | ⟨v, -, rfl⟩
        · exact ⟨[.op (charToOp c)] ++ s2, by simp⟩
        · exact ⟨[.value v, .op (charToOp c)] ++ s2, by simp⟩
      · exact absurd h (by simp)
    · exact ih (current ++ [c]) acc out h

theorem scanItems_ne_nil :
    ∀ (cs current : List Char) (acc out : List BeatExpressionItem),
      scanItems cs current acc = .ok out → (current ≠ [] ∨ acc ≠ []) → out ≠ [] := by
  intro cs
  induction cs with
  | nil =>
    intro current acc out h hne
    simp only [scanItems, flushCurrent] at h
    by_cases hc : current = []
    · rw [if_pos hc] at h
      have : acc = out := by simpa using h
      subst this
      rcases hne with h1 | h2
      · exact absurd hc h1
      · exact h2
    · rw [if_neg hc] at h
      split at h
      · rename_i v hv
        have hout : acc ++ [BeatExpressionItem.value v] = out := by simpa using h
        intro hnil
        rw [hnil] at hout
        exact absurd (congrArg List.length hout) (by simp)
      · exact absurd h (by simp)
  | cons c cs ih =>
    intro current acc out h hne
    simp only [scanItems] at h
    split at h
    · split at h
      · rename_i items2 hflush
        exact ih [] (items2 ++ [.op (charToOp c)]) out h (Or.inr (by simp))
      · exact absurd h (by simp)
    · exact ih (current ++ [c]) acc out h (Or.inl (by simp))

theorem flushCurrent_wf {current : List Char} {acc out : List BeatExpressionItem}
    (hacc : ∀ it ∈ acc, WFItem it) (h : flushCurrent current acc = .ok out) :
    ∀ it ∈ out, WFItem it := by
  rcases flushCurrent_prefix h with rfl | ⟨v, hv, rfl⟩
  · exact hacc
  · intro it hit
    rcases List.mem_append.1 hit with hit | hit
    · exact hacc it hit
    · rcases List.mem_singleton.1 hit with rfl
      exact wf_of_parse_beat_value hv

theorem scanItems_wf :
    ∀ (cs current : List Char) (acc out : List BeatExpressionItem),
      (∀ it ∈ acc, WFItem it) → scanItems cs current acc = .ok out →
      ∀ it ∈ out, WFItem it := by
  intro cs
  induction cs with
  | nil =>
    intro current acc out hacc h
    exact flushCurrent_wf hacc h
  | cons c cs ih =>
    intro current acc out hacc h
    simp only [scanItems] at h
    split at h
    · split at h
      · rename_i items2 hflush
        refine ih [] (items2 ++ [.op (charToOp c)]) out ?_ h
        intro it hit
        rcases List.mem_append.1 hit with hit | hit
        · exact flushCurrent_wf hacc hflush it hit
        · rcases List.mem_singleton.1 hit with rfl
          trivial
      · exact absurd h (by simp)
    · exact ih (current ++ [c]) acc out hacc h

theorem flushCurrent_noAdj {current : List Char} {acc out : List BeatExpressionItem}
    (hacc : NoAdjacentValues acc) (hend : endsWithValue acc = false)
    (h : flushCurrent current acc = .ok out) : NoAdjacentValues out := by
  rcases flushCurrent_prefix h with rfl | ⟨v, -, rfl⟩
  · exact hacc
  · exact noAdj_append_value v hacc hend

theorem isOpChar_displayOp (o : BeatOperator) : isOpChar (displayOp o) = true := by
  cases o <;> decide

theorem charToOp_displayOp (o : BeatOperator) : charToOp (displayOp o) = o := by
  cases o <;> rfl

theorem scanItems_append_nonop :
    ∀ (lex : List Char), (∀ c ∈ lex, isOpChar c = false) →
    ∀ (rest current : List Char) (acc : List BeatExpressionItem),
      scanItems (lex ++ rest) current acc = scanItems rest (current ++ lex) acc := by
  intro lex
  induction lex with
  | nil =>
    intro _ rest current acc
    simp
  | cons c lex ih =>
    intro h rest current acc
    have hc : isOpChar c = false := h c (by simp)
    simp only [List.cons_append, scanItems, hc, Bool.false_eq_true, if_false, List.append_eq]
    rw [ih (fun x hx => h x (by simp [hx])) rest (current ++ [c]) acc]
    simp [List.append_assoc]

/-- Rendering a wellformed, scanner-shaped item list and rescanning it yields
exactly the same items. -/
theorem scanItems_render :
    ∀ (n : ℕ) (items acc : List BeatExpressionItem),
      items.length ≤ n → (∀ it ∈ items, WFItem it) → NoAdjacentValues items →
      scanItems (displayExpression items) [] acc = .ok (acc ++ items) := by
  intro n
  induction n with
  | zero =>
    intro items acc hlen _ _
    have : items = [] := List.length_eq_zero.1 (Nat.le_zero.1 hlen)
    subst this
    simp [displayExpression, scanItems, flushCurrent]
  | succ n ih =>
    intro items acc hlen hwf hadj
    cases items with
    | nil => simp [displayExpression, scanItems, flushCurrent]
    | cons it rest =>
      cases it with
      | op o =>
        have hdisp : displayExpression (.op o :: rest) =
            displayOp o :: displayExpression rest := by
          simp [displayExpression, displayItem]
        rw [hdisp]
        simp only [scanItems, isOpChar_displayOp, if_true, flushCurrent, eq_self_iff_true]
        rw [charToOp_displayOp]
        have := ih rest (acc ++ [.op o]) (by simpa using Nat.lt_succ_iff.1 hlen)
          (fun x hx => hwf x (by simp [hx])) (noAdj_tail hadj)
        rw [this]
        simp
      | value v =>
        have hwfv : WFValue v := by
          have := hwf (.value v) (by simp)
          simpa [WFItem] using this
        have hpv : parse_beat_value (displayValue v) = .ok v := parse_displayValue hwfv
        have hne : displayValue v ≠ [] := displayValue_ne_nil hwfv
        have hnop : ∀ c ∈ displayValue v, isOpChar c = false := fun c hc =>
          isOpChar_eq_false_of_46 (mem_displayValue_toNat hc).1
        have hdisp : displayExpression (.value v :: rest) =
            displayValue v ++ displayExpression rest := by
          simp [displayExpression, displayItem]
        rw [hdisp, scanItems_append_nonop _ hnop, List.nil_append]
        cases rest with
        | nil =>
          simp [displayExpression, scanItems, flushCurrent, if_neg hne, hpv]
        | cons it2 rest2 =>
          cases it2 with
          | value w => exact absurd hadj (by simp [NoAdjacentValues])
          | op o =>
            have hdisp2 : displayExpression (.op o :: rest2) =
                displayOp o :: displayExpression rest2 := by
              simp [displayExpression, displayItem]
            rw [hdisp2]
            simp only [scanItems, isOpChar_displayOp, if_true, flushCurrent, if_neg hne, hpv]
            rw [charToOp_displayOp]
            have hlen2 : rest2.length ≤ n := by
              simp only [List.length_cons] at hlen
              omega
            have := ih rest2 ((acc ++ [.value v]) ++ [.op o]) hlen2
              (fun x hx => hwf x (by simp [hx])) (noAdj_tail (noAdj_tail hadj))
            rw [this]
            simp

theorem scanItems_noAdj :
    ∀ (cs current : List Char) (acc out : List BeatExpressionItem),
      NoAdjacentValues acc → endsWithValue acc = false →
      scanItems cs current acc = .ok out → NoAdjacentValues out := by
  intro cs
  induction cs with
  | nil =>
    intro current acc out hacc hend h
    exact flushCurrent_noAdj hacc hend h
  | cons c cs ih =>
    intro current acc out hacc hend h
    simp only [scanItems] at h
    split at h
    · split at h
      · rename_i items2 hflush
        refine ih [] (items2 ++ [.op (charToOp c)]) out ?_ ?_ h
        · exact noAdj_append_op _ (flushCurrent_noAdj hacc hend hflush)
        · exact endsWithValue_append_op _ _
      · exact absurd h (by simp)
    · exact ih (current ++ [c]) acc out hacc hend h

theorem isWsChar_mem_displayExpression {items : List BeatExpressionItem} {c : Char}
    (hc : c ∈ displayExpression items) : isWsChar c = false := by
  simp only [displayExpression, List.mem_flatten, List.mem_map] at hc
  obtain ⟨l, ⟨it, hit, rfl⟩, hcl⟩ := hc
  cases it with
  | op o =>
    have : c = displayOp o := by simpa [displayItem] using hcl
    subst this
    cases o <;> decide
  | value v =>
    exact isWsChar_eq_false_of_46 (mem_displayValue_toNat (by simpa [displayItem] using hcl)).1

theorem displayExpression_ne_nil {items : List BeatExpressionItem}
    (hne : items ≠ []) (hwf : ∀ it ∈ items, WFItem it) : displayExpression items ≠ [] := by
  cases items with
  | nil => exact absurd rfl hne
  | cons it rest =>
    cases it with
    | op o => simp [displayExpression, displayItem]
    | value v =>
      have hwfv : WFValue v := by
        have := hwf (.value v) (by simp)
        simpa [WFItem] using this
      simp only [displayExpression, List.map_cons, List.flatten_cons, displayItem, ne_eq,
        List.append_eq_nil]
      intro hx
      exact displayValue_ne_nil hwfv hx.1

theorem dropWhile_eq_self_of_forall {p : Char → Bool} {cs : List Char}
    (h : ∀ c ∈ cs, p c = false) : cs.dropWhile p = cs := by
  cases cs with
  | nil => rfl
  | cons c cs' =>
    rw [List.dropWhile_cons, h c (by simp)]
    simp

theorem trimChars_eq_self {cs : List Char} (h : ∀ c ∈ cs, isWsChar c = false) :
    trimChars cs = cs := by
  unfold trimChars
  rw [dropWhile_eq_self_of_forall h,
    dropWhile_eq_self_of_forall (fun c hc => h c (List.mem_reverse.1 hc))]
  exact List.reverse_reverse cs

/-- Everything `BeatExpression::from_str` checked on the way to success. -/
theorem beatExpression_from_str_inv {cs : List Char} {items : List BeatExpressionItem}
    (h : beatExpression_from_str cs = .ok items) :
    trimChars cs ≠ [] ∧ (' ' : Char) ∉ trimChars cs ∧
    scanItems (trimChars cs) [] [] = .ok items ∧
    validateItems items = true ∧
    ¬((evaluate_sums items).1 < (evaluate_sums items).2) := by
  simp only [beatExpression_from_str] at h
  split at h
  · exact absurd h (by simp)
  · rename_i hne
    split at h
    · exact absurd h (by simp)
    · rename_i hsp
      split at h
      · exact absurd h (by simp)
      · rename_i out hscan
        split at h
        · rename_i hval
          split at h
          · exact absurd h (by simp)
          · rename_i hsum
            cases h
            exact ⟨hne, hsp, hscan, hval, hsum⟩
        · exact absurd h (by simp)

/-- Accepted inputs produce a nonempty item list. -/
theorem beatExpression_items_ne_nil {cs : List Char} {items : List BeatExpressionItem}
    (h : beatExpression_from_str cs = .ok items) : items ≠ [] := by
  obtain ⟨hne, -, hscan, -, -⟩ := beatExpression_from_str_inv h
  obtain ⟨c, cs', hcs⟩ := List.exists_cons_of_ne_nil hne
  rw [hcs] at hscan
  simp only [scanItems] at hscan
  by_cases hop : isOpChar c = true
  · rw [if_pos hop] at hscan
    simp only [flushCurrent, if_pos rfl, List.nil_append] at hscan
    exact scanItems_ne_nil cs' [] [.op (charToOp c)] items hscan (Or.inr (by simp))
  · rw [if_neg hop] at hscan
    exact scanItems_ne_nil cs' [c] [] items hscan (Or.inl (by simp))

/-- C7 (amended): rendering an accepted expression yields a canonical string
that parses back to the same expression. -/
theorem beatExpression_reparse {cs : List Char} {items : List BeatExpressionItem}
    (h : beatExpression_from_str cs = .ok items) :
    beatExpression_from_str (displayExpression items) = .ok items := by
  obtain ⟨hne, hsp, hscan, hval, hsum⟩ := beatExpression_from_str_inv h
  have hwf : ∀ it ∈ items, WFItem it := scanItems_wf _ [] [] items (by simp) hscan
  have hadj : NoAdjacentValues items := scanItems_noAdj _ [] [] items trivial rfl hscan
  have hitems_ne : items ≠ [] := beatExpression_items_ne_nil h
  have hws : ∀ c ∈ displayExpression items, isWsChar c = false := fun c hc =>
    isWsChar_mem_displayExpression hc
  have htrim : trimChars (displayExpression items) = displayExpression items :=
    trimChars_eq_self hws
  have hdne : displayExpression items ≠ [] := displayExpression_ne_nil hitems_ne hwf
  have hnosp : (' ' : Char) ∉ displayExpression items := by
    intro hm
    have := hws ' ' hm
    revert this; decide
  have hrescan : scanItems (displayExpression items) [] [] = .ok items := by
    have := scanItems_render items.length items [] (le_refl _) hwf hadj
    simpa using this
  simp only [beatExpression_from_str, htrim, if_neg hdne, if_neg hnosp, hrescan, hval,
    if_true, if_neg hsum]

/-- C7 counterexample: the input `01/4` is accepted by `BeatExpression`
parsing (Rust's `u32::from_str` tolerates the leading zero), but rendering
the parsed expression yields `1/4`, so parse followed by `to_string` is not
the identity on every valid input. -/
theorem claim_C7_counterexample :
    beatExpression_from_str ['0', '1', '/', '4'] =
      .ok [.value (.fraction ⟨1, 4⟩)] ∧
    displayExpression [.value (.fraction ⟨1, 4⟩)] ≠ ['0', '1', '/', '4'] := by
  constructor
  · with_unfolding_all decide
  · with_unfolding_all decide

/-- C7 (amended): for every string accepted by `BeatExpression` parsing, the
rendered text is a canonical form of the input rather than the input itself:
re-parsing `to_string` of the parsed expression yields exactly the same
expression (so rendering is the identity precisely on canonically spelled
inputs). -/
theorem claim_C7 {cs : List Char} {items : List BeatExpressionItem}
    (h : beatExpression_from_str cs = .ok items) :
    beatExpression_from_str (displayExpression items) = .ok items :=
  beatExpression_reparse h

/-- C7 witness: the amended round-trip at the concrete accepted input
`01/4`. -/
theorem claim_C7_witness :
    beatExpression_from_str (displayExpression [.value (.fraction ⟨1, 4⟩)]) =
      .ok [.value (.fraction ⟨1, 4⟩)] :=
  @claim_C7 ['0', '1', '/', '4'] [.value (.fraction ⟨1, 4⟩)]
    (by with_unfolding_all decide)

/-- C8: `BeatExpression` parsing rejects any expression whose accumulated
positive sum is below the accumulated negative sum, so for every accepted
string the evaluated result `pos_sum - neg_sum` is nonnegative. -/
theorem claim_C8 {cs : List Char} {items : List BeatExpressionItem}
    (h : beatExpression_from_str cs = .ok items) :
    (evaluate_sums items).2 ≤ (evaluate_sums items).1 ∧
    0 ≤ beatExpression_as_beat_time items := by
  obtain ⟨-, -, -, -, hsum⟩ := beatExpression_from_str_inv h
  have hle := le_of_not_lt hsum
  exact ⟨hle, by simp [beatExpression_as_beat_time, sub_nonneg, hle]⟩

/-- C8 witness: the nonnegativity at the concrete accepted input `1/2-1/4`. -/
theorem claim_C8_witness :
    (evaluate_sums
        [.value (.fraction ⟨1, 2⟩), .op .minus, .value (.fraction ⟨1, 4⟩)]).2 ≤
      (evaluate_sums
        [.value (.fraction ⟨1, 2⟩), .op .minus, .value (.fraction ⟨1, 4⟩)]).1 ∧
    0 ≤ beatExpression_as_beat_time
        [.value (.fraction ⟨1, 2⟩), .op .minus, .value (.fraction ⟨1, 4⟩)] :=
  @claim_C8 ['1', '/', '2', '-', '1', '/', '4']
    [.value (.fraction ⟨1, 2⟩), .op .minus, .value (.fraction ⟨1, 4⟩)]
    (by with_unfolding_all decide)

/-! ## The SMF event model

The shapes exchanged with the external `midly` library: channel-voice
messages, meta messages, and delta-timed track events.  Byte strings are
modelled as `String` (the source passes UTF-8 through `from_utf8_lossy` /
`as_bytes`), byte vectors as `List ℕ`.
-/

/-- `midly::MidiMessage` (the constructors the translators use). -/
inductive MidiMessage
  | noteOn (key vel : ℕ)
  | noteOff (key vel : ℕ)
  | controller (controller value : ℕ)
  | programChange (program : ℕ)
  | pitchBend (bend : ℕ)
  | aftertouch (key vel : ℕ)
  | channelAftertouch (vel : ℕ)
deriving DecidableEq

/-- `midly::MetaMessage`. -/
inductive MetaMessage
  | tempo (microsPerQuarter : ℕ)
  | timeSignature (num den clocks bb : ℕ)
  | trackName (text : String)
  | text (text : String)
  | copyright (text : String)
  | instrumentName (text : String)
  | lyric (text : String)
  | marker (text : String)
  | cuePoint (text : String)
  | programName (text : String)
  | deviceName (text : String)
  | trackNumber (num : Option ℕ)
  | midiChannel (channel : ℕ)
  | midiPort (port : ℕ)
  | smpteOffset (value : String)
  | keySignature (sharpsFlats : ℤ) (minor : Bool)
  | sequencerSpecific (data : List ℕ)
  | unknown (msgType : ℕ) (data : List ℕ)
  | endOfTrack
deriving DecidableEq

/-- `midly::TrackEventKind`. -/
inductive TrackEventKind
  | midi (channel : ℕ) (message : MidiMessage)
  | meta (message : MetaMessage)
  | sysEx (data : List ℕ)
  | escape (data : List ℕ)
deriving DecidableEq

/-- `midly::TrackEvent`: a delta (or, transiently in the reverse translator,
an absolute tick) plus the event kind. -/
structure TrackEvent where
  delta : ℕ
  kind : TrackEventKind
deriving DecidableEq

/-- `midly::Format`. -/
inductive SmfFormat
  | singleTrack
  | parallel
  | sequential
deriving DecidableEq

/-- `midly::Timing`: metrical pulses-per-quarter or SMPTE timecode. -/
inductive SmfTiming
  | metrical (ppq : ℕ)
  | timecode (fps subframe : ℕ)
deriving DecidableEq

/-- A parsed SMF: header plus the per-track delta-timed event lists. -/
structure Smf where
  format : SmfFormat
  timing : SmfTiming
  tracks : List (List TrackEvent)
deriving DecidableEq

/-- The emitted single-track SMF of the reverse translator. -/
structure MidiFile where
  format : SmfFormat
  ppq : ℕ
  tracks : List (List TrackEvent)
deriving DecidableEq

/-! ## Escape / unescape (`midi/escape.rs`, modelled from the spec §4.4) -/

/-- Hexadecimal digit value of a character. -/
def hexVal (c : Char) : Option ℕ :=
  if 48 ≤ c.toNat ∧ c.toNat ≤ 57 then some (c.toNat - 48)
  else if 65 ≤ c.toNat ∧ c.toNat ≤ 70 then some (c.toNat - 55)
  else if 97 ≤ c.toNat ∧ c.toNat ≤ 102 then some (c.toNat - 87)
  else none

/-- Hexadecimal digit character (uppercase). -/
def hexDigit (n : ℕ) : Char :=
  if n < 10 then digitChar n else Char.ofNat (55 + n)

/-- Modelled from the spec: the unescape direction of §4.4
(`midi/escape.rs` is not among the provided sources); the source function is
total, so an unknown escape passes the backslash through. -/
def unescapeChars : List Char → List Char
  | [] => []
  | ['\\'] => ['\\']
  | '\\' :: 'n' :: rest => '\n' :: unescapeChars rest
  | '\\' :: 't' :: rest => '\t' :: unescapeChars rest
  | '\\' :: '"' :: rest => '"' :: unescapeChars rest
  | '\\' :: '\\' :: rest => '\\' :: unescapeChars rest
  | '\\' :: 'x' :: h1 :: h2 :: rest =>
    match hexVal h1, hexVal h2 with
    | some a, some b => Char.ofNat (16 * a + b) :: unescapeChars rest
    | _, _ => '\\' :: unescapeChars ('x' :: h1 :: h2 :: rest)
  | '\\' :: c :: rest => '\\' :: unescapeChars (c :: rest)
  | c :: rest => c :: unescapeChars rest

/-- Modelled from the spec: `unescape_string` over `String`. -/
def unescape_string (s : String) : String := String.mk (unescapeChars s.toList)

/-- Modelled from the spec: one character of the escape direction of §4.4. -/
def escapeChar (c : Char) : List Char :=
  if c = '\\' then ['\\', '\\']
  else if c = '\n' then ['\\', 'n']
  else if c = '\t' then ['\\', 't']
  else if c = '"' then ['\\', '"']
  else if c.toNat < 32 then ['\\', 'x', hexDigit (c.toNat / 16), hexDigit (c.toNat % 16)]
  else [c]

/-- Modelled from the spec: `escape_string`. -/
def escape_string (s : String) : String :=
  String.mk ((s.toList.map escapeChar).flatten)

/-! ## Shared MIDI mappings (`midi/shared.rs`, modelled from the spec) -/

/-- Modelled from the spec: `note_to_midi_number` (`midi/shared.rs` is not
among the provided sources).  A note is modelled by its MIDI key number;
keys outside `0..=127` fail with `NoteOutOfRange`. -/
def note_to_midi_number (note : ℕ) : Except String ℕ :=
  if note ≤ 127 then .ok note else .error "Note out of range"

/-- Modelled from the spec: `midi_key_to_note` (the forward direction of the
key mapping); total on `0..=127`. -/
def midi_key_to_note (key : ℕ) : Except String ℕ :=
  if key ≤ 127 then .ok key else .error "Note out of range"

/-- The result type of `controller_name_to_midi`. -/
inductive MidiControllerEvent
  | cc (number value : ℕ)
  | pitchBendEvent (value : ℕ)
  | aftertouchEvent (value : ℕ)
deriving DecidableEq

/-- The saturating truncating `f64 → u32` cast (`as u32`), over `ℚ`. -/
def ratToU32 (q : ℚ) : ℕ := min (max ⌊q⌋ 0).toNat (2 ^ 32 - 1)

/-- `(v * 127.0).clamp(0.0, 127.0) as u8`: clamp first, then truncate. -/
def vel_byte (v : ℚ) : ℕ := (min (max (v * 127) 0) 127).floor.toNat

/-- `(*channel as u8).min(15)`: the `u16` channel is truncated to `u8`
(mod 256) and then clamped to 15. -/
def channel_byte (ch : ℕ) : ℕ := min (ch % 256) 15

/-- Modelled from the spec: `midi_cc_to_name` — the named-controller table
(shown for `volume = 7` in the spec) with `cc<N>` as fallback. -/
def midi_cc_to_name (n : ℕ) : String :=
  if n = 7 then "volume" else "cc" ++ String.mk (printNat n)

/-- Rust `u8::from_str` (optional `+`, digits, overflow above 255 fails). -/
def parseU8 (cs : List Char) : Option ℕ :=
  match parseDigits (stripPlus cs) with
  | some n => if n < 2 ^ 8 then some n else none
  | none => none

/-- Modelled from the spec: `controller_name_to_midi` — `pitch` maps back to
a 14-bit pitch-bend (`value/12*8192+8192`), `aftertouch` to a 7-bit pressure,
a known name or `cc<N>` to that controller number with a 7-bit value; unknown
names fail with `UnknownController`. -/
def controller_name_to_midi (name : String) (value : ℚ) :
    Except String MidiControllerEvent :=
  if name = "pitch" then
    .ok (.pitchBendEvent (min (max (value / 12 * 8192 + 8192) 0) 16383).floor.toNat)
  else if name = "aftertouch" then
    .ok (.aftertouchEvent (vel_byte value))
  else if name = "volume" then
    .ok (.cc 7 (vel_byte value))
  else
    match name.toList with
    | 'c' :: 'c' :: rest =>
      match parseU8 rest with
      | some n => .ok (.cc (min n 127) (vel_byte value))
      | none => .error "Unknown controller"
    | _ => .error "Unknown controller"

/-- Fuel-based binary logarithm (kernel-computable `log2`). -/
def log2Fuel : ℕ → ℕ → ℕ
  | 0, _ => 0
  | fuel + 1, n => if 2 ≤ n then log2Fuel fuel (n / 2) + 1 else 0

/-- Modelled from the spec: `time_signature_to_midi` — numerator unchanged,
denominator encoded as its base-2 logarithm (the SMF form). -/
def time_signature_to_midi (numerator denominator : ℕ) : ℕ × ℕ :=
  (numerator, log2Fuel denominator denominator)

/-! ## OutputRecord (`types/output_record.rs`, modelled from the spec §3) -/

/-- Modelled from the spec: `MtxtOutputRecord` — the flattened,
absolute-microsecond-timed record stream (`types/output_record.rs` is not
among the provided sources).  Fields are the ones
`convert_output_records_to_midi` reads; notes carry their MIDI key number,
velocities are unit-interval fractions, channels are the `u16` MTXT channel
field, time is microseconds (`u64`). -/
inductive MtxtOutputRecord
  | noteOn (time : ℕ) (note : ℕ) (velocity : ℚ) (channel : ℕ)
  | noteOff (time : ℕ) (note : ℕ) (offVelocity : ℚ) (channel : ℕ)
  | controlChange (time : ℕ) (controller : String) (value : ℚ) (channel : ℕ)
  | voice (time : ℕ) (voices : List String) (channel : ℕ)
  | tempo (time : ℕ) (bpm : ℚ)
  | timeSignature (time : ℕ) (numerator denominator : ℕ)
  | globalMeta (time : ℕ) (metaType value : String)
  | channelMeta (time : ℕ) (metaType value : String) (channel : ℕ)
  | sysEx (time : ℕ) (data : List ℕ)
  | reset (time : ℕ)
  | beat (time : ℕ)
deriving DecidableEq

/-- `MtxtOutputRecord::time()`. -/
def MtxtOutputRecord.time : MtxtOutputRecord → ℕ
  | .noteOn t _ _ _ => t
  | .noteOff t _ _ _ => t
  | .controlChange t _ _ _ => t
  | .voice t _ _ => t
  | .tempo t _ => t
  | .timeSignature t _ _ => t
  | .globalMeta t _ _ => t
  | .channelMeta t _ _ _ => t
  | .sysEx t _ => t
  | .reset t => t
  | .beat t => t

/-! ## MTXT → SMF translation (`midi/mtxt_to_midi.rs`) -/

/-- `micros_to_ticks`: microseconds to ticks through the running BPM
(`beats = t / (60e6 / bpm)`, `ticks = beats * tpb` cast to `u32`).  Over `ℚ`
a zero BPM gives `t / 0 = 0`, matching the float path `t / inf = 0`. -/
def micros_to_ticks (time_micros : ℕ) (bpm : ℚ) (ticks_per_beat : ℕ) : ℕ :=
  ratToU32 ((time_micros : ℚ) / (60000000 / bpm) * ticks_per_beat)

/-- `(60_000_000.0 / bpm) as u32` for the tempo meta event (float semantics:
division by zero gives `+inf`, which the cast saturates to `u32::MAX`). -/
def bpm_to_micros_per_quarter (bpm : ℚ) : ℕ :=
  if bpm = 0 then 2 ^ 32 - 1 else ratToU32 (60000000 / bpm)

/-- The meta-type table of the `GlobalMeta`/`ChannelMeta` arm (unrecognised
types become `Text`). -/
def metaFromType (ty : String) (v : String) : MetaMessage :=
  if ty = "copyright" then .copyright v
  else if ty = "title" ∨ ty = "trackname" ∨ ty = "name" then .trackName v
  else if ty = "instrument" then .instrumentName v
  else if ty = "lyric" then .lyric v
  else if ty = "marker" then .marker v
  else if ty = "cue" then .cuePoint v
  else if ty = "program" then .programName v
  else if ty = "device" then .deviceName v
  else .text v

/-- The per-record arm of the `match` in `convert_output_records_to_midi`:
the events pushed for one record, with `tick` the absolute tick computed for
it (stored in the `delta` field until `convert_to_delta_timing`). -/
def recordToEvents (tick : ℕ) : MtxtOutputRecord → Except String (List TrackEvent)
  | .noteOn _ note velocity channel =>
    match note_to_midi_number note with
    | .ok note_num =>
      .ok [⟨tick, .midi (channel_byte channel) (.noteOn note_num (vel_byte velocity))⟩]
    | .error e => .error e
  | .noteOff _ note offVelocity channel =>
    match note_to_midi_number note with
    | .ok note_num =>
      .ok [⟨tick, .midi (channel_byte channel) (.noteOff note_num (vel_byte offVelocity))⟩]
    | .error e => .error e
  | .controlChange _ controller value channel =>
    match controller_name_to_midi controller value with
    | .ok (.cc number cval) =>
      .ok [⟨tick, .midi (channel_byte channel) (.controller number cval)⟩]
    | .ok (.pitchBendEvent bval) =>
      .ok [⟨tick, .midi (channel_byte channel) (.pitchBend bval)⟩]
    | .ok (.aftertouchEvent aval) =>
      .ok [⟨tick, .midi (channel_byte channel) (.channelAftertouch aval)⟩]
    | .error e => .error e
  | .voice _ voices channel =>
    match (voices.map unescape_string).head? with
    | some first_voice =>
      .ok [⟨tick, .midi (channel_byte channel)
        (.programChange (min ((parseU8 first_voice.toList).getD 0) 127))⟩]
    | none => .ok []
  | .tempo _ bpm =>
    .ok [⟨tick, .meta (.tempo (bpm_to_micros_per_quarter bpm))⟩]
  | .timeSignature _ numerator denominator =>
    .ok [⟨tick, .meta (.timeSignature (time_signature_to_midi numerator denominator).1
      (time_signature_to_midi numerator denominator).2 24 8)⟩]
  | .globalMeta _ metaType value =>
    .ok [⟨tick, .meta (metaFromType metaType (unescape_string value))⟩]
  | .channelMeta _ metaType value _ =>
    .ok [⟨tick, .meta (metaFromType metaType (unescape_string value))⟩]
  | .sysEx _ data => .ok [⟨tick, .sysEx data⟩]
  | .reset _ => .ok []
  | .beat _ => .ok []

/-- `current_bpm` after a record: updated by `Tempo`, kept otherwise. -/
def nextBpm (r : MtxtOutputRecord) (current_bpm : ℚ) : ℚ :=
  match r with
  | .tempo _ bpm => bpm
  | _ => current_bpm

/-- The record loop: compute the absolute tick with the current BPM, update
the BPM afterwards if the record is a `Tempo`, translate the record. -/
def processRecords : List MtxtOutputRecord → ℚ → Except String (List TrackEvent)
  | [], _ => .ok []
  | r :: rest, current_bpm =>
    match recordToEvents (micros_to_ticks r.time current_bpm 480) r with
    | .ok evs =>
      match processRecords rest (nextBpm r current_bpm) with
      | .ok evsRest => .ok (evs ++ evsRest)
      | .error e => .error e
    | .error e => .error e

/-- Stable insertion into a key-sorted list (equal keys keep arrival order). -/
def insertSorted {α : Type} (le : α → α → Bool) (x : α) : List α → List α
  | [] => [x]
  | y :: ys => if le y x then y :: insertSorted le x ys else x :: y :: ys

/-- Stable sort (models Rust's stable `sort_by_key` / `sort_by`). -/
def sortWith {α : Type} (le : α → α → Bool) (l : List α) : List α :=
  l.foldl (fun acc x => insertSorted le x acc) []

/-- The tick order of `sort_by_key(|event| event.delta)`. -/
def leTick (a b : TrackEvent) : Bool := a.delta ≤ b.delta

/-- `convert_to_delta_timing`: absolute ticks to deltas by saturating
subtraction against the previous tick. -/
def convert_to_delta_timing : List TrackEvent → ℕ → List TrackEvent
  | [], _ => []
  | e :: rest, last_tick => ⟨e.delta - last_tick, e.kind⟩ :: convert_to_delta_timing rest e.delta

/-- `convert_output_records_to_midi`: translate every record, sort the track
by (absolute) tick, convert to delta timing, append `EndOfTrack`, and wrap
in a single-track PPQ-480 SMF. -/
def convert_output_records_to_midi (records : List MtxtOutputRecord) :
    Except String MidiFile :=
  match processRecords records 120 with
  | .ok track_events =>
    .ok ⟨.singleTrack, 480,
      [convert_to_delta_timing (sortWith leTick track_events) 0 ++
        [⟨0, .meta .endOfTrack⟩]]⟩
  | .error e => .error e

/-! ### Structural lemmas about the reverse translator -/

theorem insertSorted_perm {α : Type} (le : α → α → Bool) (x : α) :
    ∀ l : List α, (insertSorted le x l).Perm (x :: l) := by
  intro l
  induction l with
  | nil => rfl
  | cons y ys ih =>
    simp only [insertSorted]
    split
    · exact (ih.cons y).trans (List.Perm.swap x y ys)
    · exact List.Perm.refl _

theorem sortWith_perm_aux {α : Type} (le : α → α → Bool) :
    ∀ (l acc : List α), (l.foldl (fun acc x => insertSorted le x acc) acc).Perm (acc ++ l) := by
  intro l
  induction l with
  | nil => intro acc; simp
  | cons x xs ih =>
    intro acc
    simp only [List.foldl_cons]
    exact (ih (insertSorted le x acc)).trans
      (((insertSorted_perm le x acc).append_right xs).trans List.perm_middle.symm)

theorem sortWith_perm {α : Type} (le : α → α → Bool) (l : List α) :
    (sortWith le l).Perm l := by
  simpa [sortWith] using sortWith_perm_aux le l []

theorem convert_to_delta_timing_map_kind :
    ∀ (l : List TrackEvent) (last_tick : ℕ),
      (convert_to_delta_timing l last_tick).map TrackEvent.kind = l.map TrackEvent.kind := by
  intro l
  induction l with
  | nil => intro last_tick; rfl
  | cons e rest ih =>
    intro last_tick
    simp only [convert_to_delta_timing, List.map_cons, ih]

theorem convert_to_delta_timing_length :
    ∀ (l : List TrackEvent) (last_tick : ℕ),
      (convert_to_delta_timing l last_tick).length = l.length := by
  intro l
  induction l with
  | nil => intro last_tick; rfl
  | cons e rest ih =>
    intro last_tick
    simp only [convert_to_delta_timing, List.length_cons, ih]

/-- Unpack a successful reverse translation. -/
theorem convert_output_records_inv {records : List MtxtOutputRecord} {mf : MidiFile}
    (h : convert_output_records_to_midi records = .ok mf) :
    ∃ evs, processRecords records 120 = .ok evs ∧
      mf.tracks = [convert_to_delta_timing (sortWith leTick evs) 0 ++
        [⟨0, .meta .endOfTrack⟩]] := by
  simp only [convert_output_records_to_midi] at h
  split at h
  · rename_i evs hevs
    cases h
    exact ⟨evs, hevs, rfl⟩
  · exact absurd h (by simp)

theorem recordToEvents_channel {tick : ℕ} {r : MtxtOutputRecord} {evs : List TrackEvent}
    (h : recordToEvents tick r = .ok evs) :
    ∀ e ∈ evs, ∀ ch m, e.kind = .midi ch m → ch ≤ 15 := by
  have hcb : ∀ c : ℕ, channel_byte c ≤ 15 := fun c => min_le_right _ _
  cases r <;> simp only [recordToEvents] at h
  case noteOn t note v ch =>
    split at h
    · cases h
      intro e he c m hk
      rcases List.mem_singleton.1 he with rfl
      cases hk
      exact hcb _
    · exact absurd h (by simp)
  case noteOff t note v ch =>
    split at h
    · cases h
      intro e he c m hk
      rcases List.mem_singleton.1 he with rfl
      cases hk
      exact hcb _
    · exact absurd h (by simp)
  case controlChange t ctrl v ch =>
    split at h
    · cases h
      intro e he c m hk
      rcases List.mem_singleton.1 he with rfl
      cases hk
      exact hcb _
    · cases h
      intro e he c m hk
      rcases List.mem_singleton.1 he with rfl
      cases hk
      exact hcb _
    · cases h
      intro e he c m hk
      rcases List.mem_singleton.1 he with rfl
      cases hk
      exact hcb _
    · exact absurd h (by simp)
  case voice t voices ch =>
    split at h
    · cases h
      intro e he c m hk
      rcases List.mem_singleton.1 he with rfl
      cases hk
      exact hcb _
    · cases h
      intro e he
      exact absurd he (by simp)
  case tempo t bpm =>
    cases h
    intro e he c m hk
    rcases List.mem_singleton.1 he with rfl
    cases hk
  case timeSignature t n d =>
    cases h
    intro e he c m hk
    rcases List.mem_singleton.1 he with rfl
    cases hk
  case globalMeta t ty v =>
    cases h
    intro e he c m hk
    rcases List.mem_singleton.1 he with rfl
    cases hk
  case channelMeta t ty v ch =>
    cases h
    intro e he c m hk
    rcases List.mem_singleton.1 he with rfl
    cases hk
  case sysEx t data =>
    cases h
    intro e he c m hk
    rcases List.mem_singleton.1 he with rfl
    cases hk
  case reset t =>
    cases h
    intro e he
    exact absurd he (by simp)
  case beat t =>
    cases h
    intro e he
    exact absurd he (by simp)

theorem processRecords_channel :
    ∀ (records : List MtxtOutputRecord) (bpm : ℚ) (evs : List TrackEvent),
      processRecords records bpm = .ok evs →
      ∀ e ∈ evs, ∀ ch m, e.kind = .midi ch m → ch ≤ 15 := by
  intro records
  induction records with
  | nil =>
    intro bpm evs h
    cases h
    intro e he
    exact absurd he (by simp)
  | cons r rest ih =>
    intro bpm evs h
    simp only [processRecords] at h
    split at h
    · rename_i evs1 hr
      split at h
      · rename_i evs2 hrest
        cases h
        intro e he ch m hk
        rcases List.mem_append.1 he with he | he
        · exact recordToEvents_channel hr e he ch m hk
        · exact ih _ _ hrest e he ch m hk
      · exact absurd h (by simp)
    · exact absurd h (by simp)

/-- Replace a record's time field, leaving all other fields unchanged. -/
def MtxtOutputRecord.setTime (t : ℕ) : MtxtOutputRecord → MtxtOutputRecord
  | .noteOn _ note v ch => .noteOn t note v ch
  | .noteOff _ note v ch => .noteOff t note v ch
  | .controlChange _ c v ch => .controlChange t c v ch
  | .voice _ vs ch => .voice t vs ch
  | .tempo _ bpm => .tempo t bpm
  | .timeSignature _ n d => .timeSignature t n d
  | .globalMeta _ ty v => .globalMeta t ty v
  | .channelMeta _ ty v ch => .channelMeta t ty v ch
  | .sysEx _ d => .sysEx t d
  | .reset _ => .reset t
  | .beat _ => .beat t

/-- Whether an `Except` result is a success. -/
def exceptOk {α : Type} : Except String α → Bool
  | .ok _ => true
  | .error _ => false

theorem recordToEvents_isOk_setTime (t1 t2 u : ℕ) (r : MtxtOutputRecord) :
    exceptOk (recordToEvents t1 (r.setTime u)) = exceptOk (recordToEvents t2 r) := by
  cases r <;> simp only [MtxtOutputRecord.setTime, recordToEvents]
  case noteOn t note v ch =>
    cases note_to_midi_number note <;> rfl
  case noteOff t note v ch =>
    cases note_to_midi_number note <;> rfl
  case controlChange t c v ch =>
    rcases controller_name_to_midi c v with e | mc
    · rfl
    · cases mc <;> rfl
  case voice t vs ch =>
    cases (vs.map unescape_string).head? <;> rfl
  all_goals rfl

theorem nextBpm_setTime (u : ℕ) (r : MtxtOutputRecord) (b : ℚ) :
    nextBpm (r.setTime u) b = nextBpm r b := by
  cases r <;> rfl

theorem processRecords_isOk_retime (f : ℕ → ℕ) :
    ∀ (records : List MtxtOutputRecord) (b1 b2 : ℚ),
      exceptOk (processRecords (records.map (fun r => r.setTime (f r.time))) b1) =
        exceptOk (processRecords records b2) := by
  intro records
  induction records with
  | nil => intro b1 b2; rfl
  | cons r rest ih =>
    intro b1 b2
    simp only [List.map_cons, processRecords, nextBpm_setTime]
    have hok := recordToEvents_isOk_setTime
      (micros_to_ticks (r.setTime (f r.time)).time b1 480)
      (micros_to_ticks r.time b2 480) (f r.time) r
    have hih := ih (nextBpm r b1) (nextBpm r b2)
    rcases hre : recordToEvents (micros_to_ticks r.time b2 480) r with e | evs1 <;>
      rcases hre2 : recordToEvents (micros_to_ticks (r.setTime (f r.time)).time b1 480)
        (r.setTime (f r.time)) with e2 | evs2 <;>
      rw [hre, hre2] at hok
    · rfl
    · exact absurd hok (by simp [exceptOk])
    · exact absurd hok (by simp [exceptOk])
    · rcases hrest : processRecords rest (nextBpm r b2) with e | evsr <;>
        rcases hrest2 : processRecords (rest.map (fun r => r.setTime (f r.time)))
          (nextBpm r b1) with e2 | evsr2 <;>
        rw [hrest, hrest2] at hih <;>
        first
          | ((try rw [hrest2]); rfl)
          | exact absurd hih (by simp [exceptOk])

/-- How many SMF events one output record emits (`Reset`, `Beat`, and a
`Voice` with no voices emit none; every other record emits exactly one). -/
def recEmitCount : MtxtOutputRecord → ℕ
  | .reset _ => 0
  | .beat _ => 0
  | .voice _ voices _ => if voices = [] then 0 else 1
  | _ => 1

theorem recordToEvents_length {tick : ℕ} {r : MtxtOutputRecord} {evs : List TrackEvent}
    (h : recordToEvents tick r = .ok evs) : evs.length = recEmitCount r := by
  cases r <;> simp only [recordToEvents] at h
  case noteOn t note v ch =>
    split at h
    · cases h; rfl
    · exact absurd h (by simp)
  case noteOff t note v ch =>
    split at h
    · cases h; rfl
    · exact absurd h (by simp)
  case controlChange t c v ch =>
    split at h
    · cases h; rfl
    · cases h; rfl
    · cases h; rfl
    · exact absurd h (by simp)
  case voice t voices ch =>
    rcases hv : (voices.map unescape_string).head? with - | fv <;> rw [hv] at h
    · cases h
      have hnil : voices = [] := by
        cases voices with
        | nil => rfl
        | cons a as => simp at hv
      simp [recEmitCount, hnil]
    · cases h
      have hne : voices ≠ [] := by
        intro hnil
        rw [hnil] at hv
        simp at hv
      simp [recEmitCount, hne]
  case tempo t bpm => cases h; rfl
  case timeSignature t n d => cases h; rfl
  case globalMeta t ty v => cases h; rfl
  case channelMeta t ty v ch => cases h; rfl
  case sysEx t d => cases h; rfl
  case reset t => cases h; rfl
  case beat t => cases h; rfl

theorem processRecords_length :
    ∀ (records : List MtxtOutputRecord) (bpm : ℚ) (evs : List TrackEvent),
      processRecords records bpm = .ok evs →
      evs.length = (records.map recEmitCount).sum := by
  intro records
  induction records with
  | nil =>
    intro bpm evs h
    cases h
    rfl
  | cons r rest ih =>
    intro bpm evs h
    simp only [processRecords] at h
    split at h
    · rename_i evs1 hr
      split at h
      · rename_i evs2 hrest
        cases h
        simp only [List.map_cons, List.sum_cons, List.length_append,
          recordToEvents_length hr, ih _ _ hrest]
      · exact absurd h (by simp)
    · exact absurd h (by simp)

theorem note_to_midi_number_inv {note k : ℕ} (h : note_to_midi_number note = .ok k) :
    k = note := by
  simp only [note_to_midi_number] at h
  split at h
  · cases h; rfl
  · exact absurd h (by simp)

theorem processRecords_noteOn_mem :
    ∀ (records : List MtxtOutputRecord) (bpm : ℚ) (evs : List TrackEvent),
      processRecords records bpm = .ok evs →
      ∀ (t note : ℕ) (v : ℚ) (ch : ℕ), MtxtOutputRecord.noteOn t note v ch ∈ records →
      (TrackEventKind.midi (channel_byte ch) (.noteOn note (vel_byte v))) ∈
        evs.map TrackEvent.kind := by
  intro records
  induction records with
  | nil =>
    intro bpm evs h t note v ch hr
    exact absurd hr (by simp)
  | cons r rest ih =>
    intro bpm evs h t note v ch hr
    simp only [processRecords] at h
    split at h
    · rename_i evs1 hre
      split at h
      · rename_i evs2 hrest
        cases h
        rcases List.mem_cons.1 hr with rfl | hr
        · simp only [recordToEvents] at hre
          split at hre
          · rename_i k hk
            obtain rfl : k = note := note_to_midi_number_inv hk
            cases hre
            simp
          · exact absurd hre (by simp)
        · have := ih _ _ hrest t note v ch hr
          simp only [List.map_append, List.mem_append]
          exact Or.inr this
      · exact absurd h (by simp)
    · exact absurd h (by simp)

theorem mem_delta_kind {e : TrackEvent} {l : List TrackEvent} {last_tick : ℕ}
    (he : e ∈ convert_to_delta_timing l last_tick) :
    ∃ e2 ∈ l, e2.kind = e.kind := by
  have h1 : e.kind ∈ (convert_to_delta_timing l last_tick).map TrackEvent.kind :=
    List.mem_map_of_mem _ he
  rw [convert_to_delta_timing_map_kind] at h1
  obtain ⟨e2, he2, hk⟩ := List.mem_map.1 h1
  exact ⟨e2, he2, hk⟩

/-- Whether an event is an SMF `Text` meta event (the padding shape the spec
describes). -/
def isTextMeta : TrackEventKind → Bool
  | .meta (.text _) => true
  | _ => false

/-- C1 counterexample: a `NoteOn` with channel 16 (greater than 15) does not
make the translation fail; it succeeds, with the channel truncated to `u8`
and clamped to 15.  No `ChannelOutOfRange` failure exists in this path. -/
theorem claim_C1_counterexample :
    convert_output_records_to_midi [.noteOn 0 60 (1 / 2) 16] =
      .ok ⟨.singleTrack, 480,
        [[⟨0, .midi 15 (.noteOn 60 63)⟩, ⟨0, .meta .endOfTrack⟩]]⟩ := by
  with_unfolding_all decide

/-- C1 (amended): a channel greater than 15 is not an error: the translator
clamps (`(*channel as u8).min(15)`), so in every successful translation every
emitted MIDI event carries a channel of at most 15. -/
theorem claim_C1 {records : List MtxtOutputRecord} {mf : MidiFile}
    (h : convert_output_records_to_midi records = .ok mf)
    {track : List TrackEvent} (ht : track ∈ mf.tracks)
    {e : TrackEvent} (he : e ∈ track)
    {ch : ℕ} {m : MidiMessage} (hk : e.kind = .midi ch m) : ch ≤ 15 := by
  obtain ⟨evs, hevs, htracks⟩ := convert_output_records_inv h
  rw [htracks] at ht
  rcases List.mem_singleton.1 ht with rfl
  rcases List.mem_append.1 he with he | he
  · obtain ⟨e2, he2, hk2⟩ := mem_delta_kind he
    have he2evs : e2 ∈ evs := (sortWith_perm leTick evs).mem_iff.1 he2
    exact processRecords_channel _ _ _ hevs e2 he2evs ch m (hk2.trans hk)
  · rcases List.mem_singleton.1 he with rfl
    cases hk

/-- C1 witness: the amended bound at the concrete channel-16 input. -/
theorem claim_C1_witness : (15 : ℕ) ≤ 15 :=
  @claim_C1 [.noteOn 0 60 (1 / 2) 16]
    ⟨.singleTrack, 480, [[⟨0, .midi 15 (.noteOn 60 63)⟩, ⟨0, .meta .endOfTrack⟩]]⟩
    (by with_unfolding_all decide)
    [⟨0, .midi 15 (.noteOn 60 63)⟩, ⟨0, .meta .endOfTrack⟩]
    (by simp)
    ⟨0, .midi 15 (.noteOn 60 63)⟩
    (by simp)
    15 (.noteOn 60 63) rfl

/-- C2 counterexample: a record stream whose second time (500000 µs) is
strictly below its first (1000000 µs) translates successfully — the events
are stably sorted by tick and delta-encoded — instead of failing with
`NonMonotonicTime`. -/
theorem claim_C2_counterexample :
    convert_output_records_to_midi
        [.noteOn 1000000 60 (1 / 2) 0, .noteOn 500000 64 (1 / 2) 0] =
      .ok ⟨.singleTrack, 480,
        [[⟨480, .midi 0 (.noteOn 64 63)⟩, ⟨480, .midi 0 (.noteOn 60 63)⟩,
          ⟨0, .meta .endOfTrack⟩]]⟩ := by
  with_unfolding_all decide

theorem convert_isOk_eq (records : List MtxtOutputRecord) :
    exceptOk (convert_output_records_to_midi records) =
      exceptOk (processRecords records 120) := by
  simp only [convert_output_records_to_midi]
  rcases processRecords records 120 with e | evs <;> rfl

/-- C2 (amended): the reverse translator has no time-monotonicity check at
all: whether it succeeds never depends on the records' times (each record's
absolute microseconds are converted to an absolute tick under the running
BPM, events are stably sorted by tick, and deltas are the saturating
differences of consecutive sorted ticks). -/
theorem claim_C2 (f : ℕ → ℕ) (records : List MtxtOutputRecord) :
    exceptOk (convert_output_records_to_midi
        (records.map (fun r => r.setTime (f r.time)))) =
      exceptOk (convert_output_records_to_midi records) := by
  rw [convert_isOk_eq, convert_isOk_eq]
  exact processRecords_isOk_retime f records 120 120

/-- C3 counterexample: a `NoteOn` with velocity 0.787 emits the MIDI velocity
byte 99, because the source truncates (`as u8`) the clamped product instead
of rounding it; `clamp(round(0.787 × 127), 0, 127)` would be 100. -/
theorem claim_C3_counterexample :
    convert_output_records_to_midi [.noteOn 0 60 (787 / 1000) 0] =
      .ok ⟨.singleTrack, 480,
        [[⟨0, .midi 0 (.noteOn 60 99)⟩, ⟨0, .meta .endOfTrack⟩]]⟩ ∧
    round ((787 : ℚ) / 1000 * 127) = 100 ∧ (99 : ℕ) ≠ 100 := by
  refine ⟨?_, ?_, ?_⟩
  · with_unfolding_all decide
  · with_unfolding_all decide
  · decide

/-- C3 (amended): for every `NoteOn` record in a successful translation, the
emitted MIDI velocity byte is the truncation (floor) of
`clamp(v × 127, 0, 127)` — not its rounding. -/
theorem claim_C3 {records : List MtxtOutputRecord} {mf : MidiFile}
    (h : convert_output_records_to_midi records = .ok mf)
    {t note : ℕ} {v : ℚ} {ch : ℕ}
    (hr : MtxtOutputRecord.noteOn t note v ch ∈ records) :
    (TrackEventKind.midi (channel_byte ch) (.noteOn note (vel_byte v))) ∈
      (mf.tracks.headD []).map TrackEvent.kind ∧
    vel_byte v = (min (max (v * 127) 0) 127).floor.toNat := by
  obtain ⟨evs, hevs, htracks⟩ := convert_output_records_inv h
  refine ⟨?_, rfl⟩
  rw [htracks]
  simp only [List.headD_cons, List.map_append, List.mem_append]
  left
  rw [convert_to_delta_timing_map_kind]
  have hmem := processRecords_noteOn_mem _ _ _ hevs t note v ch hr
  obtain ⟨e2, he2, hk2⟩ := List.mem_map.1 hmem
  exact List.mem_map.2 ⟨e2, (sortWith_perm leTick evs).mem_iff.2 he2, hk2⟩

/-- C3 witness: the amended velocity formula at the concrete 0.787 input. -/
theorem claim_C3_witness :
    (TrackEventKind.midi (channel_byte 0) (.noteOn 60 (vel_byte (787 / 1000)))) ∈
      ((⟨.singleTrack, 480,
        [[⟨0, .midi 0 (.noteOn 60 99)⟩, ⟨0, .meta .endOfTrack⟩]]⟩ : MidiFile).tracks.headD
          []).map TrackEvent.kind ∧
    vel_byte ((787 : ℚ) / 1000) = (min (max ((787 : ℚ) / 1000 * 127) 0) 127).floor.toNat :=
  @claim_C3 [.noteOn 0 60 (787 / 1000) 0]
    ⟨.singleTrack, 480, [[⟨0, .midi 0 (.noteOn 60 99)⟩, ⟨0, .meta .endOfTrack⟩]]⟩
    (by with_unfolding_all decide)
    0 60 (787 / 1000) 0 (by simp)

theorem c4_tick_eval : micros_to_ticks 300000000000 120 480 = 288000000 := by
  with_unfolding_all decide

theorem c4_record_eval : recordToEvents 288000000 (.noteOn 300000000000 60 (1 / 2) 0) =
    .ok [⟨288000000, .midi 0 (.noteOn 60 63)⟩] := by
  have h1 : note_to_midi_number 60 = .ok 60 := by decide
  have h2 : channel_byte 0 = 0 := by decide
  have h3 : vel_byte (1 / 2 : ℚ) = 63 := by with_unfolding_all decide
  simp only [recordToEvents, h1, h2, h3]

theorem c4_convert_eval :
    convert_output_records_to_midi [.noteOn 300000000000 60 (1 / 2) 0] =
      .ok ⟨.singleTrack, 480,
        [[⟨288000000, .midi 0 (.noteOn 60 63)⟩, ⟨0, .meta .endOfTrack⟩]]⟩ := by
  have h3 : processRecords [.noteOn 300000000000 60 (1 / 2) 0] 120 =
      .ok [⟨288000000, .midi 0 (.noteOn 60 63)⟩] := by
    simp only [processRecords, MtxtOutputRecord.time, c4_tick_eval, c4_record_eval, nextBpm,
      List.append_nil]
  simp only [convert_output_records_to_midi, h3, sortWith, insertSorted, List.foldl,
    convert_to_delta_timing]
  rfl

/-- C4 counterexample: a record whose computed tick (288000000) exceeds the
28-bit SMF delta maximum 2^28−1 = 268435455 produces no `Text("long delta")`
padding events at all: the oversized value is passed through unchanged. -/
theorem claim_C4_counterexample :
    convert_output_records_to_midi [.noteOn 300000000000 60 (1 / 2) 0] =
      .ok ⟨.singleTrack, 480,
        [[⟨288000000, .midi 0 (.noteOn 60 63)⟩, ⟨0, .meta .endOfTrack⟩]]⟩ ∧
    2 ^ 28 - 1 < 288000000 ∧
    ([⟨288000000, .midi 0 (.noteOn 60 63)⟩,
      (⟨0, .meta .endOfTrack⟩ : TrackEvent)].all fun e => !isTextMeta e.kind) = true := by
  refine ⟨c4_convert_eval, ?_, ?_⟩
  · decide
  · decide

/-- C4 (amended): the translator never emits padding events: in every
successful translation the single track holds exactly one event per
emitting record plus the final `EndOfTrack` — oversized deltas are passed to
the SMF library unchecked rather than being split into `Text("long delta")`
padding. -/
theorem claim_C4 {records : List MtxtOutputRecord} {mf : MidiFile}
    (h : convert_output_records_to_midi records = .ok mf) :
    (mf.tracks.headD []).length = (records.map recEmitCount).sum + 1 := by
  obtain ⟨evs, hevs, htracks⟩ := convert_output_records_inv h
  rw [htracks]
  simp only [List.headD_cons, List.length_append, convert_to_delta_timing_length,
    List.length_singleton]
  rw [(sortWith_perm leTick evs).length_eq, processRecords_length _ _ _ hevs]

/-! ## MTXT records (`types/record.rs`, modelled from the spec §3) -/

/-- Modelled from the spec: `NoteTarget` (notes are modelled by MIDI key
number, as in the shared mappings above). -/
inductive NoteTarget
  | noteT (note : ℕ)
  | restT
  | chord (notes : List ℕ)
deriving DecidableEq

/-- Modelled from the spec: `MtxtRecord` (`types/record.rs` is not among the
provided sources) — the canonical MTXT record stream, beat times as
rationals.  Only the fields the forward translator touches are modelled;
directive variants (never produced by it) are omitted. -/
inductive MtxtRecord
  | header (major minor : ℕ)
  | globalMeta (metaType value : String)
  | meta (time : Option ℚ) (channel : Option ℕ) (metaType value : String)
  | note (time : ℚ) (note : NoteTarget) (duration : Option ℚ) (velocity : Option ℚ)
      (offVelocity : Option ℚ) (channel : Option ℕ)
  | noteOn (time : ℚ) (note : NoteTarget) (velocity : Option ℚ) (channel : Option ℕ)
  | noteOff (time : ℚ) (note : NoteTarget) (offVelocity : Option ℚ) (channel : Option ℕ)
  | controlChange (time : ℚ) (note : Option ℕ) (controller : String) (value : ℚ)
      (channel : Option ℕ) (transitionCurve : Option String)
      (transitionTime transitionInterval : Option ℚ)
  | voice (time : ℚ) (voices : List String) (channel : Option ℕ)
  | tempo (time : ℚ) (bpm : ℚ) (transitionCurve : Option String)
      (transitionTime transitionInterval : Option ℚ)
  | timeSignature (time : ℚ) (numerator denominator : ℕ)
  | sysEx (time : ℚ) (data : List ℕ)
deriving DecidableEq

/-! ## SMF → MTXT translation (`midi/midi_to_mtxt.rs`) -/

/-- The intermediate per-track event of the forward translator. -/
inductive TickEvent
  | noteEv (start_tick end_tick : ℕ) (note : ℕ) (velocity offVelocity : ℚ) (channel : ℕ)
  | other (tick : ℕ) (record : MtxtRecord)
deriving DecidableEq

/-- The `(channel, key) → (start_tick, velocity)` open-note map.  The source
uses `std::collections::HashMap`; content-wise operations (insert, remove)
are modelled on an association list, and the end-of-track iteration order —
which the `HashMap` leaves unspecified and randomises per instance — is a
parameter `ord` of the translation. -/
abbrev NoteOnMap := List ((ℕ × ℕ) × (ℕ × ℚ))

/-- `HashMap::insert`: replace the binding if the key is present. -/
def mapInsert (k : ℕ × ℕ) (v : ℕ × ℚ) : NoteOnMap → NoteOnMap
  | [] => [(k, v)]
  | (k2, v2) :: rest => if k2 = k then (k, v) :: rest else (k2, v2) :: mapInsert k v rest

/-- `HashMap::remove`: the removed value and the remaining map. -/
def mapRemove (k : ℕ × ℕ) : NoteOnMap → Option ((ℕ × ℚ) × NoteOnMap)
  | [] => none
  | (k2, v2) :: rest =>
    if k2 = k then some (v2, rest)
    else
      match mapRemove k rest with
      | some (v3, m3) => some (v3, (k2, v2) :: m3)
      | none => none

/-- Signed decimal numeral of an integer. -/
def printInt (z : ℤ) : List Char :=
  if z < 0 then '-' :: printNat z.natAbs else printNat z.natAbs

/-- Modelled from the spec: `midi_key_signature_to_string` — a textual form
of the (sharps/flats, minor) pair. -/
def midi_key_signature_to_string (sharpsFlats : ℤ) (minor : Bool) : String :=
  String.mk (printInt sharpsFlats) ++ (if minor then "m" else "")

/-- `{:02X}` byte rendering used for sequencer-specific / unknown metas. -/
def hexByte (b : ℕ) : List Char := [hexDigit (b / 16), hexDigit (b % 16)]

/-- The uppercase-hex string of a byte vector. -/
def bytesToHex (data : List ℕ) : String := String.mk ((data.map hexByte).flatten)

/-- `convert_midi_message_to_tick_events`: channel-voice messages to tick
events, maintaining the open-note map (velocity-0 `NoteOn` closes a note;
closing an unopened note is dropped). -/
def convert_midi_message_to_tick_events (msg : MidiMessage) (channel : ℕ)
    (note_on_events : NoteOnMap) (current_tick : ℕ) :
    Except String (NoteOnMap × List TickEvent) :=
  match msg with
  | .noteOn key vel =>
    let velocity : ℚ := (vel : ℚ) / 127
    if 0 < velocity then
      .ok (mapInsert (channel, key) (current_tick, velocity) note_on_events, [])
    else
      match mapRemove (channel, key) note_on_events with
      | some ((start_tick, note_velocity), m2) =>
        match midi_key_to_note key with
        | .ok note =>
          .ok (m2, [.noteEv start_tick current_tick note note_velocity 0 channel])
        | .error e => .error e
      | none => .ok (note_on_events, [])
  | .noteOff key vel =>
    match mapRemove (channel, key) note_on_events with
    | some ((start_tick, note_velocity), m2) =>
      match midi_key_to_note key with
      | .ok note =>
        .ok (m2, [.noteEv start_tick current_tick note note_velocity ((vel : ℚ) / 127) channel])
      | .error e => .error e
    | none => .ok (note_on_events, [])
  | .controller ctrl value =>
    .ok (note_on_events, [.other current_tick
      (.controlChange 0 none (midi_cc_to_name ctrl) ((value : ℚ) / 127)
        (some channel) none none none)])
  | .programChange program =>
    .ok (note_on_events,
      [.other current_tick (.voice 0 [String.mk (printNat program)] (some channel))])
  | .pitchBend bend =>
    .ok (note_on_events, [.other current_tick
      (.controlChange 0 none "pitch" (((bend : ℚ) - 8192) / 8192 * 12)
        (some channel) none none none)])
  | .aftertouch _ vel =>
    .ok (note_on_events, [.other current_tick
      (.controlChange 0 none "aftertouch" ((vel : ℚ) / 127) (some channel) none none none)])
  | .channelAftertouch vel =>
    .ok (note_on_events, [.other current_tick
      (.controlChange 0 none "aftertouch" ((vel : ℚ) / 127) (some channel) none none none)])

/-- `convert_meta_message`: SMF meta events to MTXT records (`EndOfTrack` and
an absent `TrackNumber` yield nothing).  Times are placeholders (`0`),
overwritten later from the tick→beat map.  A zero tempo byte count would be
`+inf` bpm in the source's `f32`; the rational model yields `0`. -/
def convert_meta_message (msg : MetaMessage) (current_tick : ℕ) (is_first_track : Bool)
    (track_channel : Option ℕ) : Option MtxtRecord :=
  match msg with
  | .tempo tempo_us => some (.tempo 0 ((60000000 : ℚ) / (tempo_us : ℚ)) none none none)
  | .timeSignature num den _ _ => some (.timeSignature 0 num (2 ^ den % 256))
  | .trackName text =>
    let value := escape_string text
    match track_channel with
    | none =>
      if is_first_track then some (.globalMeta "title" value)
      else some (.globalMeta "text" value)
    | some _ => some (.meta (some 0) track_channel "name" value)
  | .text text =>
    let value := escape_string text
    match track_channel with
    | none => some (.globalMeta "text" value)
    | some _ => some (.meta (some 0) track_channel "text" value)
  | .copyright text => some (.globalMeta "copyright" (escape_string text))
  | .instrumentName text =>
    some (.meta (some 0) track_channel "instrument" (escape_string text))
  | .lyric text => some (.meta (some 0) track_channel "lyric" (escape_string text))
  | .marker text => some (.meta (some 0) track_channel "marker" (escape_string text))
  | .cuePoint text => some (.meta (some 0) track_channel "cue" (escape_string text))
  | .programName text => some (.globalMeta "program" (escape_string text))
  | .deviceName text => some (.globalMeta "device" (escape_string text))
  | .trackNumber num =>
    match num with
    | some n => some (.meta (some 0) none "tracknumber" (String.mk (printNat n)))
    | none => none
  | .midiChannel channel =>
    some (.meta (some 0) none "midichannel" (String.mk (printNat channel)))
  | .midiPort port => some (.meta (some 0) none "midiport" (String.mk (printNat port)))
  | .smpteOffset value => some (.globalMeta "smpte" value)
  | .keySignature sharpsFlats minor =>
    let value := midi_key_signature_to_string sharpsFlats minor
    if current_tick = 0 then some (.globalMeta "key" value)
    else some (.meta (some 0) none "keysignature" value)
  | .sequencerSpecific data =>
    some (.meta (some 0) none "sequencerspecific" (bytesToHex data))
  | .unknown msgType data =>
    some (.meta (some 0) none ("unknown_" ++ String.mk (hexByte msgType)) (bytesToHex data))
  | .endOfTrack => none

/-- The track-channel heuristic: for non-single-track files, the channel of
the first channel-voice event of the track. -/
def trackChannelOf (format : SmfFormat) (track : List TrackEvent) : Option ℕ :=
  if format = .singleTrack then none
  else
    track.findSome? fun e =>
      match e.kind with
      | .midi ch _ => some ch
      | _ => none

/-- The per-track event loop: accumulate the absolute tick, translate each
event, and thread the open-note map. -/
def convertTrackEvents (isFirst : Bool) (tc : Option ℕ) :
    List TrackEvent → ℕ → NoteOnMap → Except String (NoteOnMap × List TickEvent)
  | [], _, m => .ok (m, [])
  | e :: rest, tick, m =>
    let tick2 := tick + e.delta
    match e.kind with
    | .midi ch msg =>
      match convert_midi_message_to_tick_events msg ch m tick2 with
      | .ok (m2, evs) =>
        match convertTrackEvents isFirst tc rest tick2 m2 with
        | .ok (mf, evsRest) => .ok (mf, evs ++ evsRest)
        | .error er => .error er
      | .error er => .error er
    | .meta mm =>
      match convert_meta_message mm tick2 isFirst tc with
      | some record =>
        match convertTrackEvents isFirst tc rest tick2 m with
        | .ok (mf, evsRest) => .ok (mf, .other tick2 record :: evsRest)
        | .error er => .error er
      | none => convertTrackEvents isFirst tc rest tick2 m
    | .sysEx data =>
      match convertTrackEvents isFirst tc rest tick2 m with
      | .ok (mf, evsRest) => .ok (mf, .other tick2 (.sysEx 0 data) :: evsRest)
      | .error er => .error er
    | .escape _ => convertTrackEvents isFirst tc rest tick2 m

/-- The end-of-track pass over the still-open notes: each is closed one beat
(`ppq` ticks) after its start with off-velocity 0.  The list argument is the
open-note map in the (caller-chosen) iteration order. -/
def leftoverNoteEvents (ppq : ℕ) (entries : NoteOnMap) : List TickEvent :=
  entries.filterMap fun x =>
    match midi_key_to_note x.1.2 with
    | .ok note => some (.noteEv x.2.1 (x.2.1 + ppq) note x.2.2 0 x.1.1)
    | .error _ => none

/-- One full track: the event loop followed by the leftover pass, with `ord`
supplying the `HashMap` iteration order. -/
def convertOneTrack (ord : NoteOnMap → NoteOnMap) (format : SmfFormat) (isFirst : Bool)
    (ppq : ℕ) (track : List TrackEvent) : Except String (List TickEvent) :=
  match convertTrackEvents isFirst (trackChannelOf format track) track 0 [] with
  | .ok (m, evs) => .ok (evs ++ leftoverNoteEvents ppq (ord m))
  | .error e => .error e

/-- All tracks in order (`is_first_track` only for index 0). -/
def convertAllTracks (ord : NoteOnMap → NoteOnMap) (format : SmfFormat) (ppq : ℕ) :
    List (List TrackEvent) → Bool → Except String (List TickEvent)
  | [], _ => .ok []
  | tr :: rest, isFirst =>
    match convertOneTrack ord format isFirst ppq tr with
    | .ok evs =>
      match convertAllTracks ord format ppq rest false with
      | .ok evsRest => .ok (evs ++ evsRest)
      | .error e => .error e
    | .error e => .error e

/-- The primary tick of a tick event (note start, or the event's tick). -/
def tickOf : TickEvent → ℕ
  | .noteEv s _ _ _ _ _ => s
  | .other t _ => t

/-- The stable sort order of the merged tick events. -/
def leTickEvent (a b : TickEvent) : Bool := tickOf a ≤ tickOf b

/-- `≤` on naturals as the sort predicate for the tick list. -/
def leNat (a b : ℕ) : Bool := a ≤ b

/-- Collect every tick a tick event mentions (note start and end). -/
def collectTicks : List TickEvent → List ℕ
  | [] => []
  | .noteEv s e _ _ _ _ :: rest => s :: e :: collectTicks rest
  | .other t _ :: rest => t :: collectTicks rest

/-- `Vec::dedup` on a sorted list: drop consecutive duplicates. -/
def dedupSorted : List ℕ → List ℕ
  | [] => []
  | [x] => [x]
  | x :: y :: rest =>
    if x = y then dedupSorted (y :: rest) else x :: dedupSorted (y :: rest)

/-- The tick→beat walk: ascending over the (sorted, deduplicated) tick list,
skipping tick 0 and advancing the beat by `tick_delta / ppq` at each step.
The stored `BeatTime` value `from_parts(⌊b⌋, b − ⌊b⌋)` is the beat `b`
itself in the rational model.  No tempo information enters this function. -/
def tickWalk (ppq : ℕ) : List ℕ → ℕ → ℚ → List (ℕ × ℚ)
  | [], _, _ => []
  | t :: ts, cur_tick, cur_beat =>
    if t = 0 then tickWalk ppq ts cur_tick cur_beat
    else
      let tick_delta := t - cur_tick
      let b := if 0 < tick_delta then cur_beat + (tick_delta : ℚ) / (ppq : ℚ) else cur_beat
      (t, b) :: tickWalk ppq ts t b

/-- The tick→beat map: `0 ↦ 0` inserted first, then the walk. -/
def buildTickToBeatMap (ppq : ℕ) (ticks : List ℕ) : List (ℕ × ℚ) :=
  (0, 0) :: tickWalk ppq (dedupSorted (sortWith leNat ticks)) 0 0

/-- `HashMap::get` on the association list. -/
def mapLookup (m : List (ℕ × ℚ)) (t : ℕ) : Option ℚ :=
  match m.find? (fun p => p.1 == t) with
  | some p => some p.2
  | none => none

/-- Overwrite a record's time with its mapped beat (`Meta` becomes untimed at
beat zero); other record kinds are left unchanged. -/
def updateRecordTime (beat : ℚ) : MtxtRecord → MtxtRecord
  | .tempo _ bpm c tt ti => .tempo beat bpm c tt ti
  | .controlChange _ n ctrl v ch c tt ti => .controlChange beat n ctrl v ch c tt ti
  | .timeSignature _ n d => .timeSignature beat n d
  | .voice _ vs ch => .voice beat vs ch
  | .sysEx _ d => .sysEx beat d
  | .meta _ ch ty v => .meta (if beat = 0 then none else some beat) ch ty v
  | r => r

/-- Rewrite one tick event into its final MTXT record through the tick→beat
map (missing entries default to 0, a note's missing end to its start). -/
def rewriteEvent (map : List (ℕ × ℚ)) : TickEvent → MtxtRecord
  | .noteEv s e note vel ovel ch =>
    let start_beat := (mapLookup map s).getD 0
    let end_beat := (mapLookup map e).getD start_beat
    .note start_beat (.noteT note) (some (end_beat - start_beat)) (some vel) (some ovel)
      (some ch)
  | .other t record => updateRecordTime ((mapLookup map t).getD 0) record

/-- The final sort key `(group, time)`: 0 for `Header`/`GlobalMeta`, 1 for an
untimed `Meta`, 2 for everything timed. -/
def get_sort_key : MtxtRecord → ℕ × ℚ
  | .globalMeta _ _ => (0, 0)
  | .meta none _ _ _ => (1, 0)
  | .header _ _ => (0, 0)
  | .meta (some t) _ _ _ => (2, t)
  | .note t _ _ _ _ _ => (2, t)
  | .noteOn t _ _ _ => (2, t)
  | .noteOff t _ _ _ => (2, t)
  | .controlChange t _ _ _ _ _ _ _ => (2, t)
  | .voice t _ _ => (2, t)
  | .tempo t _ _ _ _ => (2, t)
  | .timeSignature t _ _ => (2, t)
  | .sysEx t _ => (2, t)

/-- The lexicographic `(group, time)` order of the final stable sort. -/
def leKey (a b : MtxtRecord) : Bool :=
  decide ((get_sort_key a).1 < (get_sort_key b).1) ||
    (decide ((get_sort_key a).1 = (get_sort_key b).1) &&
      decide ((get_sort_key a).2 ≤ (get_sort_key b).2))

/-- `convert_smf_to_mtxt`: the `Header 1.0` record, then all tracks merged,
stably sorted by tick, rewritten to beat times through the tick→beat map,
and stably sorted by `(group, time)`.  `ord` is the `HashMap` iteration order
used for each track's leftover open notes. -/
def convert_smf_to_mtxt (ord : NoteOnMap → NoteOnMap) (smf : Smf) :
    Except String (List MtxtRecord) :=
  let ppq := match smf.timing with
    | .metrical t => t
    | .timecode _ _ => 480
  match convertAllTracks ord smf.format ppq smf.tracks true with
  | .ok all_events =>
    let sorted := sortWith leTickEvent all_events
    let map := buildTickToBeatMap ppq (collectTicks sorted)
    .ok (.header 1 0 :: sortWith leKey (sorted.map (rewriteEvent map)))
  | .error e => .error e

/-! ### Sortedness of the tick list and the tick→beat walk -/

theorem mem_insertSorted {α : Type} {le : α → α → Bool} {x y : α} {l : List α} :
    y ∈ insertSorted le x l ↔ y = x ∨ y ∈ l := by
  constructor
  · intro h
    simpa using (insertSorted_perm le x l).mem_iff.1 h
  · intro h
    apply (insertSorted_perm le x l).mem_iff.2
    simpa using h

theorem pairwise_insertSorted_leNat {x : ℕ} {l : List ℕ}
    (h : List.Pairwise (· ≤ ·) l) : List.Pairwise (· ≤ ·) (insertSorted leNat x l) := by
  induction l with
  | nil => simp [insertSorted]
  | cons y ys ih =>
    simp only [insertSorted]
    split
    · rename_i hle
      have hyx : y ≤ x := by simpa [leNat] using hle
      have hys := (List.pairwise_cons.1 h).1
      have hpw := (List.pairwise_cons.1 h).2
      refine List.pairwise_cons.2 ⟨?_, ih hpw⟩
      intro w hw
      rcases mem_insertSorted.1 hw with rfl | hw
      · exact hyx
      · exact hys w hw
    · rename_i hle
      have hxy : x ≤ y := by
        have : ¬y ≤ x := by simpa [leNat] using hle
        omega
      refine List.pairwise_cons.2 ⟨?_, h⟩
      intro w hw
      rcases List.mem_cons.1 hw with rfl | hw
      · exact hxy
      · exact hxy.trans ((List.pairwise_cons.1 h).1 w hw)

theorem pairwise_sortWith_leNat (l : List ℕ) :
    List.Pairwise (· ≤ ·) (sortWith leNat l) := by
  suffices H : ∀ (l acc : List ℕ), List.Pairwise (· ≤ ·) acc →
      List.Pairwise (· ≤ ·) (l.foldl (fun acc x => insertSorted leNat x acc) acc) by
    exact H l [] (by simp)
  intro l
  induction l with
  | nil => intro acc h; simpa using h
  | cons x xs ih => intro acc h; exact ih _ (pairwise_insertSorted_leNat h)

theorem dedupSorted_head :
    ∀ (x : ℕ) (l : List ℕ), ∃ t, dedupSorted (x :: l) = x :: t := by
  intro x l
  induction l generalizing x with
  | nil => exact ⟨[], rfl⟩
  | cons y r ih =>
    by_cases hxy : x = y
    · subst hxy
      obtain ⟨t, ht⟩ := ih x
      exact ⟨t, by simp [dedupSorted, ht]⟩
    · exact ⟨dedupSorted (y :: r), by simp [dedupSorted, hxy]⟩

theorem dedupSorted_subset : ∀ {l : List ℕ} {y : ℕ}, y ∈ dedupSorted l → y ∈ l := by
  intro l
  induction l with
  | nil => intro y h; exact absurd h (by simp [dedupSorted])
  | cons x r ih =>
    intro y h
    cases r with
    | nil => simpa [dedupSorted] using h
    | cons z r2 =>
      simp only [dedupSorted] at h
      split at h
      · exact List.mem_cons.2 (Or.inr (ih h))
      · rcases List.mem_cons.1 h with rfl | h
        · simp
        · exact List.mem_cons.2 (Or.inr (ih h))

theorem chain_lt_dedupSorted :
    ∀ {l : List ℕ}, List.Pairwise (· ≤ ·) l → List.Chain' (· < ·) (dedupSorted l) := by
  intro l
  induction l with
  | nil => intro _; simp [dedupSorted]
  | cons x r ih =>
    intro h
    cases r with
    | nil => simp [dedupSorted]
    | cons y r2 =>
      have hxy : x ≤ y := (List.pairwise_cons.1 h).1 y (by simp)
      have htail : List.Pairwise (· ≤ ·) (y :: r2) := (List.pairwise_cons.1 h).2
      simp only [dedupSorted]
      split
      · exact ih htail
      · rename_i hne
        obtain ⟨t, ht⟩ := dedupSorted_head y r2
        rw [ht]
        refine List.chain'_cons.2 ⟨by omega, ?_⟩
        rw [← ht]
        exact ih htail

theorem pairwise_mem_rel {α : Type} {R : α → α → Prop} :
    ∀ {l : List α}, l.Pairwise R → ∀ {a b : α}, a ∈ l → b ∈ l → a = b ∨ R a b ∨ R b a := by
  intro l h
  induction h with
  | nil =>
    intro a b ha _
    exact absurd ha (by simp)
  | cons hx _ ih =>
    intro a b ha hb
    rcases List.mem_cons.1 ha with ha1 | ha2
    · rcases List.mem_cons.1 hb with hb1 | hb2
      · left; rw [ha1, hb1]
      · subst ha1
        exact Or.inr (Or.inl (hx b hb2))
    · rcases List.mem_cons.1 hb with hb1 | hb2
      · subst hb1
        exact Or.inr (Or.inr (hx a ha2))
      · exact ih ha2 hb2

/-- The step relation of the walk: the beat advances by `Δtick / ppq`. -/
def WalkStep (ppq : ℕ) (p q : ℕ × ℚ) : Prop :=
  q.2 = p.2 + ((q.1 - p.1 : ℕ) : ℚ) / (ppq : ℚ)

/-- Monotone step: tick strictly up, beat not down. -/
def MonoStep (p q : ℕ × ℚ) : Prop := p.1 < q.1 ∧ p.2 ≤ q.2

theorem tickWalk_props (ppq : ℕ) :
    ∀ (ts : List ℕ) (ct : ℕ) (cb : ℚ),
      List.Chain' (· < ·) ts → (∀ t ∈ ts, ct < t) →
      List.Chain' (WalkStep ppq) ((ct, cb) :: tickWalk ppq ts ct cb) ∧
      List.Chain' MonoStep ((ct, cb) :: tickWalk ppq ts ct cb) := by
  intro ts
  induction ts with
  | nil =>
    intro ct cb _ _
    constructor <;> simp [tickWalk]
  | cons t ts ih =>
    intro ct cb hchain hall
    have hct : ct < t := hall t (by simp)
    have ht0 : t ≠ 0 := by omega
    have hdelta : 0 < t - ct := by omega
    simp only [tickWalk, if_neg ht0, if_pos hdelta]
    have hble : cb ≤ cb + ((t - ct : ℕ) : ℚ) / (ppq : ℚ) := by
      have h1 : (0 : ℚ) ≤ ((t - ct : ℕ) : ℚ) := by positivity
      have h2 : (0 : ℚ) ≤ (ppq : ℚ) := by positivity
      have : (0 : ℚ) ≤ ((t - ct : ℕ) : ℚ) / (ppq : ℚ) := by positivity
      linarith
    have hallts : ∀ u ∈ ts, t < u := by
      have hpw := (List.chain'_iff_pairwise.1 hchain)
      exact fun u hu => (List.pairwise_cons.1 hpw).1 u hu
    obtain ⟨hc1, hc2⟩ := ih t (cb + ((t - ct : ℕ) : ℚ) / (ppq : ℚ)) hchain.tail hallts
    constructor
    · exact List.chain'_cons.2 ⟨rfl, hc1⟩
    · exact List.chain'_cons.2 ⟨⟨hct, hble⟩, hc2⟩

theorem buildTickToBeatMap_chains (ppq : ℕ) (ticks : List ℕ) :
    List.Chain' (WalkStep ppq) (buildTickToBeatMap ppq ticks) ∧
    List.Chain' MonoStep (buildTickToBeatMap ppq ticks) := by
  have hpw : List.Pairwise (· ≤ ·) (sortWith leNat ticks) := pairwise_sortWith_leNat ticks
  have hlt : List.Chain' (· < ·) (dedupSorted (sortWith leNat ticks)) :=
    chain_lt_dedupSorted hpw
  unfold buildTickToBeatMap
  cases hds : dedupSorted (sortWith leNat ticks) with
  | nil =>
    constructor <;> simp [tickWalk]
  | cons d ds =>
    rw [hds] at hlt
    have hpwlt := List.chain'_iff_pairwise.1 hlt
    by_cases hd0 : d = 0
    · subst hd0
      have : tickWalk ppq (0 :: ds) 0 0 = tickWalk ppq ds 0 0 := by
        simp [tickWalk]
      rw [this]
      exact tickWalk_props ppq ds 0 0 hlt.tail
        (fun u hu => (List.pairwise_cons.1 hpwlt).1 u hu)
    · refine tickWalk_props ppq (d :: ds) 0 0 hlt ?_
      intro u hu
      rcases List.mem_cons.1 hu with rfl | hu
      · omega
      · have : d < u := (List.pairwise_cons.1 hpwlt).1 u hu
        omega

instance : IsTrans (ℕ × ℚ) MonoStep :=
  ⟨fun _ _ _ h1 h2 => ⟨h1.1.trans h2.1, h1.2.trans h2.2⟩⟩

/-- The start tick of a tick event. -/
def startTickOf : TickEvent → ℕ
  | .noteEv s _ _ _ _ _ => s
  | .other t _ => t

/-- The end tick of a tick event (its tick, for non-notes). -/
def endTickOf : TickEvent → ℕ
  | .noteEv _ e _ _ _ _ => e
  | .other t _ => t

/-- The off-velocity of a note tick event (0 for non-notes). -/
def offVelOf : TickEvent → ℚ
  | .noteEv _ _ _ _ ov _ => ov
  | .other _ _ => 0

/-- Whether a tick event is a paired note. -/
def isNoteEv : TickEvent → Bool
  | .noteEv _ _ _ _ _ _ => true
  | .other _ _ => false

/-- C6: the tick→beat map always maps tick 0 to beat 0, is monotone
nondecreasing in the tick, and advances by exactly `Δtick / PPQ` at each
step; the map is built from the tick list alone, so tempo events cannot
influence it.  (`0 < ppq` excludes the degenerate zero-PPQ header, where the
source's `f64` division would produce infinities.) -/
theorem claim_C6 (ppq : ℕ) (_hppq : 0 < ppq) (ticks : List ℕ) :
    mapLookup (buildTickToBeatMap ppq ticks) 0 = some 0 ∧
    (∀ t1 b1 t2 b2, (t1, b1) ∈ buildTickToBeatMap ppq ticks →
      (t2, b2) ∈ buildTickToBeatMap ppq ticks → t1 ≤ t2 → b1 ≤ b2) ∧
    List.Chain' (WalkStep ppq) (buildTickToBeatMap ppq ticks) := by
  obtain ⟨hw, hm⟩ := buildTickToBeatMap_chains ppq ticks
  refine ⟨rfl, ?_, hw⟩
  intro t1 b1 t2 b2 h1 h2 hle
  have hpw := List.chain'_iff_pairwise.1 hm
  rcases pairwise_mem_rel hpw h1 h2 with heq | hR | hR
  · cases heq
    exact le_refl _
  · exact hR.2
  · exact absurd hR.1 (by omega)

/-- C6 witness: the map properties at PPQ 480 over ticks 480 and 960. -/
theorem claim_C6_witness :
    mapLookup (buildTickToBeatMap 480 [480, 960]) 0 = some 0 ∧
    (∀ t1 b1 t2 b2, (t1, b1) ∈ buildTickToBeatMap 480 [480, 960] →
      (t2, b2) ∈ buildTickToBeatMap 480 [480, 960] → t1 ≤ t2 → b1 ≤ b2) ∧
    List.Chain' (WalkStep 480) (buildTickToBeatMap 480 [480, 960]) :=
  claim_C6 480 (by decide) [480, 960]

/-- C9: every note still open at the end of a track is emitted by the
leftover pass as a paired note ending exactly `ppq` ticks (one beat) after
its start, with off-velocity 0. -/
theorem claim_C9 {ppq : ℕ} {entries : NoteOnMap} {ev : TickEvent}
    (h : ev ∈ leftoverNoteEvents ppq entries) :
    isNoteEv ev = true ∧ endTickOf ev = startTickOf ev + ppq ∧ offVelOf ev = 0 := by
  simp only [leftoverNoteEvents, List.mem_filterMap] at h
  obtain ⟨x, -, hx⟩ := h
  split at hx
  · injection hx with hx2
    subst hx2
    exact ⟨rfl, rfl, rfl⟩
  · exact absurd hx (by simp)

/-- C9 witness: one open note `(channel 0, key 60)` started at tick 0 with
PPQ 480. -/
theorem claim_C9_witness :
    isNoteEv (.noteEv 0 480 60 1 0 0) = true ∧
    endTickOf (.noteEv 0 480 60 1 0 0) = startTickOf (.noteEv 0 480 60 1 0 0) + 480 ∧
    offVelOf (.noteEv 0 480 60 1 0 0) = 0 :=
  @claim_C9 480 [((0, 60), (0, 1))] (.noteEv 0 480 60 1 0 0) (by decide)

/-- C10: an SMF with no tracks translates to exactly the `Header 1.0`
record, whatever the format, the timing, and the open-note iteration
order. -/
theorem claim_C10 (ord : NoteOnMap → NoteOnMap) (format : SmfFormat) (timing : SmfTiming) :
    convert_smf_to_mtxt ord ⟨format, timing, []⟩ = .ok [.header 1 0] := by
  cases timing <;> rfl

/-- C5: two open notes sharing start tick 0 reach the end of the track
unpaired; the translator emits them in the `HashMap` iteration order, which
`std::collections::HashMap` randomises per instance, so two invocations on
this same input can produce the two `Note` records in either order: the
output is not a function of the input alone.  Both `id` and `List.reverse`
are orders of the same open-note map, and they yield different outputs. -/
theorem claim_C5 :
    convert_smf_to_mtxt id
        ⟨.singleTrack, .metrical 480,
          [[⟨0, .midi 0 (.noteOn 60 64)⟩, ⟨0, .midi 0 (.noteOn 64 64)⟩,
            ⟨0, .meta .endOfTrack⟩]]⟩ ≠
      convert_smf_to_mtxt List.reverse
        ⟨.singleTrack, .metrical 480,
          [[⟨0, .midi 0 (.noteOn 60 64)⟩, ⟨0, .midi 0 (.noteOn 64 64)⟩,
            ⟨0, .meta .endOfTrack⟩]]⟩ := by
  with_unfolding_all decide

/-- C4 witness: the count at the concrete oversized-delta input. -/
theorem claim_C4_witness :
    (((⟨.singleTrack, 480,
        [[⟨288000000, .midi 0 (.noteOn 60 63)⟩, ⟨0, .meta .endOfTrack⟩]]⟩ :
      MidiFile).tracks.headD []).length) =
      (([.noteOn 300000000000 60 (1 / 2) 0] :
        List MtxtOutputRecord).map recEmitCount).sum + 1 :=
  @claim_C4 [.noteOn 300000000000 60 (1 / 2) 0]
    ⟨.singleTrack, 480, [[⟨288000000, .midi 0 (.noteOn 60 63)⟩, ⟨0, .meta .endOfTrack⟩]]⟩
    c4_convert_eval

end Mtxt
